import Mathlib

/-!
# Verification of `roteamento_entregas.py`

Shallow embedding of the delivery-routing program: the two graph
representations, the four single-pair Dijkstra strategies, the greedy
route planner, and the edge-weight scaling functions, together with
proofs of the behavioural properties claimed for them.

Modelling conventions:
* Python numbers (ints and floats holding exact integer/ratio data) become `ℚ`;
  the value `float('inf')` becomes `⊤` in `WithTop ℚ`.
* Python's in-place mutation of the truck list is modelled by state passing:
  `planejar_rotas` returns the final state (routes, unallocated list, trucks).
* `heapq` is modelled by its observable extract-min semantics: popping returns
  the least entry under Python's tuple order and removes one occurrence of it.
* Python dictionaries keyed by node names become association lists read through
  a lookup function; `defaultdict(list)` lookup misses give `[]`.
-/

attribute [local semireducible] Rat.add Rat.sub Rat.mul Rat.inv

set_option maxRecDepth 4000000

/-- Python string comparison: lexicographic on Unicode code points
(`Char.val`), as used by `heapq` when two tuple entries tie on the
first component. -/
def charsLt : List Char → List Char → Bool
  | [], [] => false
  | [], _ :: _ => true
  | _ :: _, [] => false
  | a :: as, b :: bs =>
      if a.toNat < b.toNat then true
      else if b.toNat < a.toNat then false
      else charsLt as bs

/-- Comparison of Python strings via their character sequences. -/
def strLt (a b : String) : Bool := charsLt a.data b.data

/-- A frontier entry `(tentative distance, node)`, as pushed on the heap or
appended to the plain list `fila`. -/
abbrev Entrada := ℚ × String

/-- Python's tuple order on `(distancia, no)` pairs: compare distances, then
node names. -/
def entradaLt (p q : Entrada) : Bool :=
  decide (p.1 < q.1) || (decide (p.1 = q.1) && strLt p.2 q.2)

/-- Source `heapq.heappop` on a nonempty frontier `h :: t`: the least entry under the
tuple order (accumulator-style scan; on exactly equal tuples the result value
is the same whichever copy the heap yields). -/
def selHeap : Entrada → List Entrada → Entrada
  | melhor, [] => melhor
  | melhor, p :: resto => selHeap (if entradaLt p melhor then p else melhor) resto

/-- Source `min(fila, key=lambda x: x[0])` on a nonempty frontier `h :: t`: the first
entry whose distance is minimal; node names are never compared. -/
def selSimples : Entrada → List Entrada → Entrada
  | melhor, [] => melhor
  | melhor, p :: resto => selSimples (if p.1 < melhor.1 then p else melhor) resto

/-- Source `fila.remove(x)`: drop the first occurrence of a value from the list. -/
def removeFirst : List Entrada → Entrada → List Entrada
  | [], _ => []
  | p :: resto, q => if p = q then resto else p :: removeFirst resto q

/-- The common Dijkstra loop of all four strategies, parameterised by the
neighbour function `adj` (sparse lookup or dense row scan) and the frontier
selection `sel` (heap pop or linear scan).  Fuel makes the `while` loop
structurally recursive; every entry point supplies provably sufficient fuel.

Body, mirroring the source: extract the selected entry and remove it; if its
node is the destination return its distance; if the node was already visited
discard it; otherwise mark it visited and push `(dist + weight, neighbour)`
for every not-yet-visited neighbour. An empty frontier returns `inf`. -/
def dijkstraLoop (adj : String → List (String × ℚ)) (sel : Entrada → List Entrada → Entrada)
    (destino : String) : ℕ → List Entrada → Finset String → WithTop ℚ
  | 0, _, _ => ⊤
  | _ + 1, [], _ => ⊤
  | fuel + 1, h :: t, visitados =>
      if (sel h t).2 = destino then ((sel h t).1 : WithTop ℚ)
      else if (sel h t).2 ∈ visitados then
        dijkstraLoop adj sel destino fuel (removeFirst (h :: t) (sel h t)) visitados
      else
        dijkstraLoop adj sel destino fuel
          (removeFirst (h :: t) (sel h t) ++ (adj (sel h t).2).filterMap fun p =>
            if p.1 ∈ visitados then none else some ((sel h t).1 + p.2, p.1))
          (insert (sel h t).2 visitados)

/-- Sparse adjacency graph: `Dict[str, List[Tuple[str, int]]]` as an
association list. -/
abbrev Grafo := List (String × List (String × ℚ))

/-- Source `grafo.get(no, [])`. -/
def Grafo.get (g : Grafo) (no : String) : List (String × ℚ) :=
  match g.find? (fun p => p.1 = no) with
  | some p => p.2
  | none => []

/-- Every node that can ever enter the frontier of a sparse-graph run seeded at
`origem`: the origin, the keys, and the listed neighbours. Used to size the
fuel. -/
def nosLista (g : Grafo) (origem : String) : Finset String :=
  insert origem
    (g.foldr (fun p s => insert p.1 (p.2.foldr (fun q s' => insert q.1 s') s)) ∅)

/-- Fuel bound for a sparse run: one initial pop plus one push per listed edge
of each potential node. -/
def fuelLista (g : Grafo) (origem : String) : ℕ :=
  1 + Finset.sum (nosLista g origem) fun v => (Grafo.get g v).length

/-- Source `dijkstra_lista_heap(grafo, origem, destino)`. -/
def dijkstra_lista_heap (grafo : Grafo) (origem destino : String) : WithTop ℚ :=
  dijkstraLoop (Grafo.get grafo) selHeap destino (fuelLista grafo origem) [(0, origem)] ∅

/-- Source `dijkstra_lista_simples(grafo, origem, destino)`. -/
def dijkstra_lista_simples (grafo : Grafo) (origem destino : String) : WithTop ℚ :=
  dijkstraLoop (Grafo.get grafo) selSimples destino (fuelLista grafo origem) [(0, origem)] ∅

/-- Dense representation: a matrix of distances-or-`inf`. -/
abbrev Matriz := List (List (WithTop ℚ))

/-- The dense neighbour scan shared by `dijkstra_matriz_heap` and
`dijkstra_matriz_simples`: walk the row `matriz[idx no]`, skipping `inf`
cells, and name each finite cell `j` after `nodes[j]`. -/
def adjMatriz (matriz : Matriz) (idx : String → ℕ) (nodes : List String)
    (no : String) : List (String × ℚ) :=
  (matriz.getD (idx no) []).enum.filterMap fun jp =>
    if h : jp.2 = ⊤ then none else some (nodes.getD jp.1 "", jp.2.untop h)

/-- Potential frontier nodes of a dense run (entries of `nodes`, the origin,
and the out-of-range placeholder). -/
def nosMatriz (nodes : List String) (origem : String) : Finset String :=
  insert "" (insert origem nodes.toFinset)

/-- Fuel bound for a dense run. -/
def fuelMatriz (matriz : Matriz) (idx : String → ℕ) (nodes : List String)
    (origem : String) : ℕ :=
  1 + Finset.sum (nosMatriz nodes origem) fun v => (adjMatriz matriz idx nodes v).length

/-- Source `dijkstra_matriz_heap(matriz, idx, nodes, origem, destino)`. -/
def dijkstra_matriz_heap (matriz : Matriz) (idx : String → ℕ) (nodes : List String)
    (origem destino : String) : WithTop ℚ :=
  dijkstraLoop (adjMatriz matriz idx nodes) selHeap destino
    (fuelMatriz matriz idx nodes origem) [(0, origem)] ∅

/-- Source `dijkstra_matriz_simples(matriz, idx, nodes, origem, destino)`. -/
def dijkstra_matriz_simples (matriz : Matriz) (idx : String → ℕ) (nodes : List String)
    (origem destino : String) : WithTop ℚ :=
  dijkstraLoop (adjMatriz matriz idx nodes) selSimples destino
    (fuelMatriz matriz idx nodes origem) [(0, origem)] ∅

/-- Source `cidades_destino`. -/
def cidades_destino : List String :=
  ["Rio de Janeiro", "Porto Alegre", "Salvador", "Manaus", "Curitiba",
   "Natal", "Goiânia", "Fortaleza", "Belo Horizonte", "Vitória"]

/-- Source `centros_distribuicao`. -/
def centros_distribuicao : List String :=
  ["Belém", "Recife", "Brasília", "São Paulo", "Florianópolis"]

/-- Source `from_distancias`: the distance table, in source order. -/
def from_distancias : List ((String × String) × ℚ) :=
  [(("Belém", "Rio de Janeiro"), 3200), (("Belém", "Porto Alegre"), 4000),
   (("Belém", "Salvador"), 2100), (("Belém", "Manaus"), 2500),
   (("Belém", "Curitiba"), 3800), (("Belém", "Natal"), 1900),
   (("Belém", "Goiânia"), 2000), (("Belém", "Fortaleza"), 1600),
   (("Belém", "Belo Horizonte"), 3000), (("Belém", "Vitória"), 3100),
   (("Recife", "Rio de Janeiro"), 2300), (("Recife", "Porto Alegre"), 3600),
   (("Recife", "Salvador"), 800), (("Recife", "Manaus"), 4300),
   (("Recife", "Curitiba"), 3400), (("Recife", "Natal"), 300),
   (("Recife", "Goiânia"), 2400), (("Recife", "Fortaleza"), 800),
   (("Recife", "Belo Horizonte"), 2400), (("Recife", "Vitória"), 2200),
   (("Brasília", "Rio de Janeiro"), 1150), (("Brasília", "Porto Alegre"), 2100),
   (("Brasília", "Salvador"), 1500), (("Brasília", "Manaus"), 3900),
   (("Brasília", "Curitiba"), 1400), (("Brasília", "Natal"), 2200),
   (("Brasília", "Goiânia"), 210), (("Brasília", "Fortaleza"), 2200),
   (("Brasília", "Belo Horizonte"), 740), (("Brasília", "Vitória"), 1300),
   (("São Paulo", "Rio de Janeiro"), 450), (("São Paulo", "Porto Alegre"), 1100),
   (("São Paulo", "Salvador"), 2000), (("São Paulo", "Manaus"), 4300),
   (("São Paulo", "Curitiba"), 400), (("São Paulo", "Natal"), 2900),
   (("São Paulo", "Goiânia"), 900), (("São Paulo", "Fortaleza"), 3000),
   (("São Paulo", "Belo Horizonte"), 590), (("São Paulo", "Vitória"), 880),
   (("Florianópolis", "Rio de Janeiro"), 1100), (("Florianópolis", "Porto Alegre"), 470),
   (("Florianópolis", "Salvador"), 2500), (("Florianópolis", "Manaus"), 4600),
   (("Florianópolis", "Curitiba"), 650), (("Florianópolis", "Natal"), 3200),
   (("Florianópolis", "Goiânia"), 1800), (("Florianópolis", "Fortaleza"), 3500),
   (("Florianópolis", "Belo Horizonte"), 1500), (("Florianópolis", "Vitória"), 500)]

/-- Source `grafo[u].append(e)` on a `defaultdict(list)`: append to the existing key's
list, or create the key (Python dicts keep insertion order). -/
def addAresta (g : Grafo) (u : String) (e : String × ℚ) : Grafo :=
  match g with
  | [] => [(u, [e])]
  | p :: resto => if p.1 = u then (p.1, p.2 ++ [e]) :: resto else p :: addAresta resto u e

/-- Source `gerar_lista_adjacencia()`: for each recorded pair insert both the
`centro → destino` and the `destino → centro` edge. -/
def gerar_lista_adjacencia : Grafo :=
  from_distancias.foldl
    (fun g cd => addAresta (addAresta g cd.1.1 (cd.1.2, cd.2)) cd.1.2 (cd.1.1, cd.2)) []

/-- Source `nodes = centros_distribuicao + cidades_destino`. -/
def nodesGerados : List String := centros_distribuicao ++ cidades_destino

/-- Source `idx = {node: i for i, node in enumerate(nodes)}`, read as a function
(the node names are pairwise distinct). -/
def idxGerado : String → ℕ := fun node => nodesGerados.indexOf node

/-- Source `from_distancias[(c, d)]` (every queried pair is present in the table). -/
def lookupDistancia (c d : String) : ℚ :=
  match from_distancias.find? (fun p => p.1 = (c, d)) with
  | some p => p.2
  | none => 0

/-- Source `matriz[i][j] = v` via out-of-place list update. -/
def setCell (m : Matriz) (i j : ℕ) (v : WithTop ℚ) : Matriz :=
  m.set i ((m.getD i []).set j v)

/-- Source `gerar_matriz_adjacencia()`: an all-`inf` square matrix over
`centros ++ cidades`, with only the `centro → destino` cells filled in. -/
def gerar_matriz_adjacencia : Matriz :=
  centros_distribuicao.foldl
    (fun m c => cidades_destino.foldl
      (fun m' d => setCell m' (idxGerado c) (idxGerado d) (lookupDistancia c d)) m)
    (List.replicate nodesGerados.length (List.replicate nodesGerados.length (⊤ : WithTop ℚ)))

/-- Source `escalar_grafo(grafo, escala)`: same keys, every weight multiplied by the
factor, built as a fresh structure. -/
def escalar_grafo (grafo : Grafo) (escala : ℚ) : Grafo :=
  grafo.map fun p => (p.1, p.2.map fun q => (q.1, q.2 * escala))

/-- Source `escalar_matriz(matriz, escala)`: every finite cell multiplied by the
factor, `inf` cells kept `inf`, built as a fresh structure. -/
def escalar_matriz (matriz : Matriz) (escala : ℚ) : Matriz :=
  matriz.map fun row => row.map fun d =>
    if h : d = ⊤ then (⊤ : WithTop ℚ) else ((d.untop h * escala : ℚ) : WithTop ℚ)

/-- Source `Entrega(destino, peso, prazo)`. -/
structure Entrega where
  destino : String
  peso : ℚ
  prazo : ℚ
deriving DecidableEq

/-- Source `Caminhao(id, capacidade, horas_disponiveis)`. -/
structure Caminhao where
  id : ℕ
  capacidade : ℚ
  horas_disponiveis : ℚ
deriving DecidableEq

/-- The distance held in `melhor` (`float('inf')` while no combination has
been accepted). -/
def melhorDist : Option (ℕ × String × ℚ) → WithTop ℚ
  | none => ⊤
  | some t => (t.2.2 : WithTop ℚ)

/-- One iteration of the inner `for cam in caminhoes` loop: accept the truck
only if it satisfies the capacity, hours and deadline constraints, and then
only if the centre's distance strictly improves on the current best. The
candidate truck is identified by its position `icam.1` in the list (Python
stores the object itself). -/
def atualizaCaminhao (entrega : Entrega) (distancia : ℚ) (centro : String)
    (acc : Option (ℕ × String × ℚ)) (icam : ℕ × Caminhao) : Option (ℕ × String × ℚ) :=
  if entrega.peso ≤ icam.2.capacidade ∧ distancia / 50 ≤ icam.2.horas_disponiveis ∧
      distancia / 50 ≤ entrega.prazo then
    if (distancia : WithTop ℚ) < melhorDist acc then some (icam.1, centro, distancia) else acc
  else acc

/-- One iteration of the outer `for centro in centros` loop: skip unreachable
centres, otherwise scan all trucks. -/
def examinaCentro (caminhoes : List Caminhao) (buscar : String → String → WithTop ℚ)
    (entrega : Entrega) (acc : Option (ℕ × String × ℚ)) (centro : String) :
    Option (ℕ × String × ℚ) :=
  match buscar centro entrega.destino with
  | ⊤ => acc
  | (distancia : ℚ) => caminhoes.enum.foldl (atualizaCaminhao entrega distancia centro) acc

/-- The full `melhor` selection for one delivery: centres outer, trucks inner,
starting from `(None, None, inf)`. -/
def selecionarMelhor (caminhoes : List Caminhao) (centros : List String)
    (buscar : String → String → WithTop ℚ) (entrega : Entrega) : Option (ℕ × String × ℚ) :=
  centros.foldl (examinaCentro caminhoes buscar entrega) none

/-- The planner state: the (mutated-in-place) truck list, the route map
`rotas` and the `nao_alocadas` list. -/
structure Estado where
  caminhoes : List Caminhao
  rotas : List (ℕ × List (String × String × ℚ))
  nao_alocadas : List Entrega

/-- Source `rotas[cid].append(leg)`: append to the first entry keyed `cid` (the key
always exists, having been created from the truck list). -/
def appendLeg (rotas : List (ℕ × List (String × String × ℚ))) (cid : ℕ)
    (leg : String × String × ℚ) : List (ℕ × List (String × String × ℚ)) :=
  match rotas with
  | [] => []
  | p :: resto => if p.1 = cid then (p.1, p.2 ++ [leg]) :: resto else p :: appendLeg resto cid leg

/-- Allocation of one delivery: if a combination was selected, decrement the
chosen truck's capacity and hours and record the leg; otherwise record the
delivery as unallocated. -/
def alocar (centros : List String) (buscar : String → String → WithTop ℚ)
    (st : Estado) (entrega : Entrega) : Estado :=
  match selecionarMelhor st.caminhoes centros buscar entrega with
  | some (i, centro, dist) =>
      match st.caminhoes[i]? with
      | some cam =>
          { caminhoes := st.caminhoes.set i
              { cam with capacidade := cam.capacidade - entrega.peso,
                         horas_disponiveis := cam.horas_disponiveis - dist / 50 },
            rotas := appendLeg st.rotas cam.id (centro, entrega.destino, dist),
            nao_alocadas := st.nao_alocadas }
      | none => st
  | none => { st with nao_alocadas := st.nao_alocadas ++ [entrega] }

/-- Source `sorted(entregas, key=lambda x: x.prazo)`: Python's stable ascending sort. -/
def prazoLe (a b : Entrega) : Bool := decide (a.prazo ≤ b.prazo)

/-- The initial planner state: full trucks, an empty route list per truck id,
nothing unallocated. -/
def estadoInicial (caminhoes : List Caminhao) : Estado :=
  { caminhoes := caminhoes,
    rotas := caminhoes.map fun c => (c.id, []),
    nao_alocadas := [] }

/-- Source `planejar_rotas(entregas, caminhoes, centros, buscar)`: process the
deliveries in stable ascending deadline order; the returned state carries
`rotas`, `nao_alocadas` and the final trucks. -/
def planejar_rotas (entregas : List Entrega) (caminhoes : List Caminhao)
    (centros : List String) (buscar : String → String → WithTop ℚ) : Estado :=
  (entregas.mergeSort prazoLe).foldl (alocar centros buscar) (estadoInicial caminhoes)

/-- Nonnegativity of every weight returned by a neighbour function; the
specification's ambient invariant that distances are never negative. -/
def NonnegAdj (adj : String → List (String × ℚ)) : Prop :=
  ∀ v : String, ∀ q ∈ adj v, 0 ≤ q.2

/-- Nonnegativity of every weight stored in a sparse graph. -/
def NonnegGrafo (g : Grafo) : Prop :=
  ∀ p ∈ g, ∀ q ∈ p.2, 0 ≤ q.2

/-- Nonnegativity of every cell of a dense matrix (with `⊤` above everything). -/
def NonnegMatriz (m : Matriz) : Prop :=
  ∀ row ∈ m, ∀ c ∈ row, (0 : WithTop ℚ) ≤ c

instance (g : Grafo) : Decidable (NonnegGrafo g) :=
  inferInstanceAs (Decidable (∀ p ∈ g, ∀ q ∈ p.2, 0 ≤ q.2))

instance (m : Matriz) : Decidable (NonnegMatriz m) :=
  inferInstanceAs (Decidable (∀ row ∈ m, ∀ c ∈ row, (0 : WithTop ℚ) ≤ c))

/-- Paths and their lengths with respect to a neighbour function, grown edge
by edge at the tail exactly as the loop extends tentative distances. -/
inductive PathLen (adj : String → List (String × ℚ)) (o : String) : String → ℚ → Prop where
  | nil : PathLen adj o o 0
  | snoc {v x : String} {c w : ℚ} :
      PathLen adj o v c → (x, w) ∈ adj v → PathLen adj o x (c + w)

/-- Some path connects the two nodes. -/
def Reachable (adj : String → List (String × ℚ)) (o d : String) : Prop :=
  ∃ c, PathLen adj o d c

/-- The value is the length of a path from `o` to `d` and no path is shorter. -/
def IsShortest (adj : String → List (String × ℚ)) (o d : String) (r : ℚ) : Prop :=
  PathLen adj o d r ∧ ∀ c, PathLen adj o d c → r ≤ c

/-- A frontier selection that always yields an entry of the frontier whose
distance is minimal: the property shared by the heap pop and the linear scan,
and all the master loop theorem requires of `sel`. -/
def SelEscolheMinimo (sel : Entrada → List Entrada → Entrada) : Prop :=
  ∀ (h : Entrada) (t : List Entrada), sel h t ∈ h :: t ∧ ∀ p ∈ h :: t, (sel h t).1 ≤ p.1

/-- A frontier selection that breaks distance ties by comparing node
identifiers: no frontier entry is strictly below the selected one in the
tuple order on `(distancia, no)`. -/
def SelDesempataPorNo (sel : Entrada → List Entrada → Entrada) : Prop :=
  ∀ (h : Entrada) (t : List Entrada), sel h t ∈ h :: t ∧
    ∀ p ∈ h :: t, entradaLt p (sel h t) = false

/-- A frontier selection that returns the first entry attaining the minimal
distance: every entry strictly before the selected one has a strictly larger
distance, and node identifiers play no part. -/
def SelPrimeiroMinimo (sel : Entrada → List Entrada → Entrada) : Prop :=
  ∀ (h : Entrada) (t : List Entrada), (∀ p ∈ h :: t, (sel h t).1 ≤ p.1) ∧
    ∃ l₁ l₂, h :: t = l₁ ++ sel h t :: l₂ ∧ ∀ p ∈ l₁, (sel h t).1 < p.1

/-- Loop measure: frontier size plus the total listed degree of the not yet
visited potential nodes. It strictly decreases at every iteration, so it is a
sufficient fuel supply. -/
def medida (adj : String → List (String × ℚ)) (N : Finset String)
    (fila : List Entrada) (visitados : Finset String) : ℕ :=
  fila.length + Finset.sum (N \ visitados) fun v => (adj v).length

/-- Invariants tying the frontier and the visited set to the graph during a
run from `o` towards `destino`: every entry is realised by a path, the origin
is covered, every edge out of a visited node has been relaxed, and the
destination is never marked visited. -/
structure LoopInv (adj : String → List (String × ℚ)) (o destino : String)
    (fila : List Entrada) (visitados : Finset String) : Prop where
  paths : ∀ p ∈ fila, PathLen adj o p.2 p.1
  origem_mem : o ∈ visitados ∨ ((0 : ℚ), o) ∈ fila
  relax : ∀ u ∈ visitados, ∀ q ∈ adj u, q.1 ∈ visitados ∨
      ∃ d, (d, q.1) ∈ fila ∧ ∀ c, PathLen adj o u c → d ≤ c + q.2
  destino_fora : destino ∉ visitados

/-- Feasibility of a truck for one delivery at a given distance: the three
conjuncts checked by the inner truck loop (capacity, hours, deadline). -/
def Viavel (entrega : Entrega) (cam : Caminhao) (distancia : ℚ) : Prop :=
  entrega.peso ≤ cam.capacidade ∧ distancia / 50 ≤ cam.horas_disponiveis ∧
    distancia / 50 ≤ entrega.prazo

/-- A centre admitting at least one feasible truck for the delivery, together
with its finite oracle distance. -/
def ComboViavel (caminhoes : List Caminhao) (buscar : String → String → WithTop ℚ)
    (entrega : Entrega) (centro : String) (d : ℚ) : Prop :=
  buscar centro entrega.destino = (d : WithTop ℚ) ∧ ∃ cam ∈ caminhoes, Viavel entrega cam d

instance (entrega : Entrega) (cam : Caminhao) (distancia : ℚ) :
    Decidable (Viavel entrega cam distancia) :=
  inferInstanceAs (Decidable (_ ∧ _ ∧ _))

instance (caminhoes : List Caminhao) (buscar : String → String → WithTop ℚ)
    (entrega : Entrega) (centro : String) (d : ℚ) :
    Decidable (ComboViavel caminhoes buscar entrega centro d) :=
  inferInstanceAs (Decidable (_ ∧ ∃ cam ∈ caminhoes, Viavel entrega cam d))

/-- Postcondition of the `melhor` selection. Either nothing was selected and
no centre of the list admits a feasible truck, or the selected triple
`(i, c, d)` satisfies: `c` occurs in the centre list with finite distance `d`
and a feasible truck; every centre strictly before that occurrence only admits
feasible combinations at strictly larger distances (first-found wins exact
ties); every centre after it only admits combinations at distances at least
`d` (strict minimality); and `i` is the position of the first truck feasible
at distance `d` (trucks-inner iteration order). -/
def SelecaoOk (caminhoes : List Caminhao) (centros : List String)
    (buscar : String → String → WithTop ℚ) (entrega : Entrega)
    (res : Option (ℕ × String × ℚ)) : Prop :=
  (res = none ∧ ∀ c ∈ centros, ∀ d : ℚ, ¬ ComboViavel caminhoes buscar entrega c d) ∨
  (∃ i c d, res = some (i, c, d) ∧
    (∃ p₁ p₂, centros = p₁ ++ c :: p₂ ∧
      ComboViavel caminhoes buscar entrega c d ∧
      (∀ c' ∈ p₁, ∀ d' : ℚ, ComboViavel caminhoes buscar entrega c' d' → d < d') ∧
      (∀ c' ∈ p₂, ∀ d' : ℚ, ComboViavel caminhoes buscar entrega c' d' → d ≤ d')) ∧
    (∃ k₁ cam k₂, caminhoes = k₁ ++ cam :: k₂ ∧ i = k₁.length ∧
      Viavel entrega cam d ∧ ∀ cam' ∈ k₁, ¬ Viavel entrega cam' d))

/-- Truck at position `i` (the default is never reached under the length
side conditions of the lemmas using it). -/
def caminhaoEm (l : List Caminhao) (i : ℕ) : Caminhao := l.getD i ⟨0, 0, 0⟩

/-- Route legs of the truck at position `i`. -/
def legsEm (rotas : List (ℕ × List (String × String × ℚ))) (i : ℕ) :
    List (String × String × ℚ) := (rotas.getD i (0, [])).2

/-- Deliveries assigned to the truck at position `i` by a ghost assignment. -/
def entregasEm (A : List (List Entrega)) (i : ℕ) : List Entrega := A.getD i []

/-- Accounting invariant of a planner run from initial trucks `cs0` after
processing the deliveries `feitas`: ids are preserved positionally, and some
ghost assignment `A` of deliveries to truck positions explains the state —
every processed delivery is in exactly one route list or unallocated, each
truck's capacity and hours equal their initial values minus the sums over its
assigned deliveries and legs, and legs match assigned deliveries one for one. -/
def PlanInv (cs0 : List Caminhao) (feitas : List Entrega) (st : Estado) : Prop :=
  st.caminhoes.map Caminhao.id = cs0.map Caminhao.id ∧
  st.rotas.map Prod.fst = cs0.map Caminhao.id ∧
  ∃ A : List (List Entrega), A.length = cs0.length ∧
    feitas.Perm (A.flatten ++ st.nao_alocadas) ∧
    ∀ i < cs0.length,
      (caminhaoEm st.caminhoes i).id = (caminhaoEm cs0 i).id ∧
      (caminhaoEm st.caminhoes i).capacidade
        = (caminhaoEm cs0 i).capacidade - ((entregasEm A i).map Entrega.peso).sum ∧
      (caminhaoEm st.caminhoes i).horas_disponiveis
        = (caminhaoEm cs0 i).horas_disponiveis
            - ((legsEm st.rotas i).map fun leg => leg.2.2 / 50).sum ∧
      List.Forall₂ (fun (leg : String × String × ℚ) (e : Entrega) => leg.2.1 = e.destino)
        (legsEm st.rotas i) (entregasEm A i)

/-- Nonnegative remaining capacity and hours for every truck of a list. -/
def CaminhoesNonneg (l : List Caminhao) : Prop :=
  ∀ cam ∈ l, 0 ≤ cam.capacidade ∧ 0 ≤ cam.horas_disponiveis

instance (l : List Caminhao) : Decidable (CaminhoesNonneg l) :=
  inferInstanceAs (Decidable (∀ cam ∈ l, 0 ≤ cam.capacidade ∧ 0 ≤ cam.horas_disponiveis))

/-- Capacity and hours accounting of a final planner state against the
initial trucks `cs0`, explained by a ghost assignment `A` of deliveries to
truck positions: for every truck the assigned weights sum to at most the
original capacity and the travel times of its legs sum to at most the
original hours; the remaining capacity and hours equal the initial values
minus those sums; and legs match assigned deliveries one for one. -/
def ContasOk (cs0 : List Caminhao) (final : Estado) (A : List (List Entrega)) : Prop :=
  A.length = cs0.length ∧
  ∀ i < cs0.length,
    ((entregasEm A i).map Entrega.peso).sum ≤ (caminhaoEm cs0 i).capacidade ∧
    ((legsEm final.rotas i).map fun leg => leg.2.2 / 50).sum
      ≤ (caminhaoEm cs0 i).horas_disponiveis ∧
    (caminhaoEm final.caminhoes i).capacidade
      = (caminhaoEm cs0 i).capacidade - ((entregasEm A i).map Entrega.peso).sum ∧
    (caminhaoEm final.caminhoes i).horas_disponiveis
      = (caminhaoEm cs0 i).horas_disponiveis
          - ((legsEm final.rotas i).map fun leg => leg.2.2 / 50).sum ∧
    List.Forall₂ (fun (leg : String × String × ℚ) (e : Entrega) => leg.2.1 = e.destino)
      (legsEm final.rotas i) (entregasEm A i)

/-- Partition of the input deliveries by a final planner state, explained by
a ghost assignment `A`: the input deliveries are exactly the assigned ones
plus the unallocated ones (as a multiset, so each appears in exactly one
place), each truck's legs match its assigned deliveries one for one, and
consequently the leg counts plus the unallocated count add up to the input
count. -/
def ParticaoOk (entregas : List Entrega) (cs0 : List Caminhao) (final : Estado)
    (A : List (List Entrega)) : Prop :=
  A.length = cs0.length ∧
  entregas.Perm (A.flatten ++ final.nao_alocadas) ∧
  (∀ i < cs0.length,
    List.Forall₂ (fun (leg : String × String × ℚ) (e : Entrega) => leg.2.1 = e.destino)
      (legsEm final.rotas i) (entregasEm A i)) ∧
  ((List.range cs0.length).map fun i => (legsEm final.rotas i).length).sum
      + final.nao_alocadas.length = entregas.length

/-- Small sparse graph used for explicit witnesses and counterexamples:
two routes from `a` to `dest`, the direct edge costing 5 and the detour
through `b` costing 2. -/
def grafoExemplo : Grafo := [("a", [("dest", 5), ("b", 1)]), ("b", [("dest", 1)])]

/-- Small dense matrix used for explicit witnesses: one edge `a → b` of
weight 1. -/
def matrizExemplo : Matriz := [[⊤, ((1 : ℚ) : WithTop ℚ)], [⊤, ⊤]]

/-- Node list of `matrizExemplo`. -/
def nodesExemplo : List String := ["a", "b"]

/-- Index function of `matrizExemplo`. -/
def idxExemplo : String → ℕ := fun n => if n = "b" then 1 else 0

/-- Tuple order implies distance order. -/
lemma entradaLt_true_le {p q : Entrada} (h : entradaLt p q = true) : p.1 ≤ q.1 := by
  simp only [entradaLt, Bool.or_eq_true, decide_eq_true_eq, Bool.and_eq_true] at h
  rcases h with h | ⟨h, _⟩
  · exact le_of_lt h
  · exact le_of_eq h

/-- Failing the tuple order implies the reverse distance order. -/
lemma entradaLt_false_le {p q : Entrada} (h : entradaLt p q = false) : q.1 ≤ p.1 := by
  simp only [entradaLt, Bool.or_eq_false_iff, decide_eq_false_iff_not] at h
  exact le_of_not_lt h.1

/-- Any accumulator scan that keeps the entry with the smaller distance under
some test yields a member of the frontier with minimal distance. -/
lemma sel_fold_spec (cnd : Entrada → Entrada → Prop) [DecidableRel cnd]
    (htrue : ∀ p q, cnd p q → p.1 ≤ q.1)
    (hfalse : ∀ p q, ¬ cnd p q → q.1 ≤ p.1)
    (selF : Entrada → List Entrada → Entrada)
    (hcons : ∀ m p r, selF m (p :: r) = selF (if cnd p m then p else m) r)
    (hnil : ∀ m, selF m [] = m) :
    ∀ (t : List Entrada) (m : Entrada), selF m t ∈ m :: t ∧ ∀ p ∈ m :: t, (selF m t).1 ≤ p.1 := by
  intro t
  induction t with
  | nil =>
    intro m
    rw [hnil]
    refine ⟨List.mem_cons_self m [], ?_⟩
    intro p hp
    rw [List.mem_singleton.mp hp]
  | cons p r ih =>
    intro m
    rw [hcons]
    by_cases hc : cnd p m
    · rw [if_pos hc]
      obtain ⟨hmem, hmin⟩ := ih p
      constructor
      · rcases List.mem_cons.mp hmem with h1 | h2
        · rw [h1]; exact List.mem_cons_of_mem _ (List.mem_cons_self _ _)
        · exact List.mem_cons_of_mem _ (List.mem_cons_of_mem _ h2)
      · intro q hq
        rcases List.mem_cons.mp hq with h1 | h2
        · rw [h1]
          exact le_trans (hmin p (List.mem_cons_self _ _)) (htrue p m hc)
        · exact hmin q h2
    · rw [if_neg hc]
      obtain ⟨hmem, hmin⟩ := ih m
      constructor
      · rcases List.mem_cons.mp hmem with h1 | h2
        · rw [h1]; exact List.mem_cons_self _ _
        · exact List.mem_cons_of_mem _ (List.mem_cons_of_mem _ h2)
      · intro q hq
        rcases List.mem_cons.mp hq with h1 | h2
        · rw [h1]; exact hmin m (List.mem_cons_self _ _)
        · rcases List.mem_cons.mp h2 with h3 | h4
          · rw [h3]
            exact le_trans (hmin m (List.mem_cons_self _ _)) (hfalse p m hc)
          · exact hmin q (List.mem_cons_of_mem _ h4)

/-- The heap pop selects an entry of minimal distance. -/
lemma selHeap_escolheMinimo : SelEscolheMinimo selHeap := by
  intro h t
  exact sel_fold_spec (fun p q => entradaLt p q = true)
    (fun p q => entradaLt_true_le)
    (fun p q hpq => entradaLt_false_le (Bool.not_eq_true _ ▸ hpq))
    selHeap (fun m p r => rfl) (fun m => rfl) t h

/-- The linear scan selects an entry of minimal distance. -/
lemma selSimples_escolheMinimo : SelEscolheMinimo selSimples := by
  intro h t
  exact sel_fold_spec (fun p q => p.1 < q.1)
    (fun p q => le_of_lt)
    (fun p q => le_of_not_lt)
    selSimples (fun m p r => rfl) (fun m => rfl) t h

/-- Removal only drops elements. -/
lemma removeFirst_subset : ∀ (l : List Entrada) (a : Entrada), ∀ x ∈ removeFirst l a, x ∈ l := by
  intro l a
  induction l with
  | nil => intro x hx; exact absurd hx (List.not_mem_nil x)
  | cons p resto ih =>
    intro x hx
    rw [removeFirst] at hx
    by_cases hpa : p = a
    · rw [if_pos hpa] at hx
      exact List.mem_cons_of_mem _ hx
    · rw [if_neg hpa] at hx
      rcases List.mem_cons.mp hx with h1 | h2
      · rw [h1]; exact List.mem_cons_self _ _
      · exact List.mem_cons_of_mem _ (ih x h2)

/-- Removing a member shortens the list by exactly one. -/
lemma length_removeFirst : ∀ (l : List Entrada) (a : Entrada), a ∈ l →
    (removeFirst l a).length + 1 = l.length := by
  intro l a
  induction l with
  | nil => intro h; exact absurd h (List.not_mem_nil a)
  | cons p resto ih =>
    intro h
    rw [removeFirst]
    by_cases hpa : p = a
    · rw [if_pos hpa]; rfl
    · rw [if_neg hpa]
      have ha : a ∈ resto := by
        rcases List.mem_cons.mp h with h1 | h2
        · exact absurd h1.symm hpa
        · exact h2
      simp only [List.length_cons, ih ha]

/-- Values different from the removed one survive removal. -/
lemma mem_removeFirst_of_ne : ∀ (l : List Entrada) {a x : Entrada}, x ≠ a → x ∈ l →
    x ∈ removeFirst l a := by
  intro l
  induction l with
  | nil => intro a x _ hx; exact absurd hx (List.not_mem_nil x)
  | cons p resto ih =>
    intro a x hne hx
    rw [removeFirst]
    by_cases hpa : p = a
    · rw [if_pos hpa]
      rcases List.mem_cons.mp hx with h1 | h2
      · exact absurd (h1.trans hpa) hne
      · exact h2
    · rw [if_neg hpa]
      rcases List.mem_cons.mp hx with h1 | h2
      · rw [h1]; exact List.mem_cons_self _ _
      · exact List.mem_cons_of_mem _ (ih hne h2)

/-- Path lengths are nonnegative when all weights are. -/
lemma PathLen.nonneg {adj : String → List (String × ℚ)} {o v : String} {c : ℚ}
    (hnn : NonnegAdj adj) (h : PathLen adj o v c) : 0 ≤ c := by
  induction h with
  | nil => exact le_refl 0
  | snoc hp he ih => exact add_nonneg ih (hnn _ _ he)

/-- Coverage: while the loop invariants hold, every path to an unvisited node
is witnessed in the frontier by an entry of no larger distance. -/
lemma frontier_cobre {adj : String → List (String × ℚ)} {o destino : String}
    {fila : List Entrada} {visitados : Finset String}
    (hnn : NonnegAdj adj) (inv : LoopInv adj o destino fila visitados) :
    ∀ {v : String} {c : ℚ}, PathLen adj o v c → v ∉ visitados → ∃ q ∈ fila, q.1 ≤ c := by
  intro v c hpath
  induction hpath with
  | nil =>
    intro hv
    rcases inv.origem_mem with h | h
    · exact absurd h hv
    · exact ⟨(0, o), h, le_refl 0⟩
  | @snoc u x c₁ w hp he ih =>
    intro hx
    by_cases hu : u ∈ visitados
    · rcases inv.relax u hu (x, w) he with h | ⟨d, hdmem, hd⟩
      · exact absurd h hx
      · exact ⟨(d, x), hdmem, hd c₁ hp⟩
    · obtain ⟨q, hq, hqle⟩ := ih hu
      exact ⟨q, hq, le_trans hqle (le_add_of_nonneg_right (hnn u (x, w) he))⟩

/-- Master theorem for the shared loop: under the frontier/visited invariants
and with fuel at least the measure, the loop returns the shortest path length
when the destination is reachable and `⊤` otherwise. -/
lemma dijkstraLoop_spec (adj : String → List (String × ℚ))
    (sel : Entrada → List Entrada → Entrada) (hsel : SelEscolheMinimo sel)
    (N : Finset String) (hfecho : ∀ v : String, ∀ q ∈ adj v, q.1 ∈ N)
    (hnn : NonnegAdj adj) (o destino : String) :
    ∀ (fuel : ℕ) (fila : List Entrada) (visitados : Finset String),
      medida adj N fila visitados ≤ fuel →
      (∀ p ∈ fila, p.2 ∈ N) →
      LoopInv adj o destino fila visitados →
      (Reachable adj o destino →
        ∃ r : ℚ, dijkstraLoop adj sel destino fuel fila visitados = (r : WithTop ℚ) ∧
          IsShortest adj o destino r) ∧
      (¬ Reachable adj o destino → dijkstraLoop adj sel destino fuel fila visitados = ⊤) := by
  intro fuel
  induction fuel with
  | zero =>
    intro fila visitados hfuel _ inv
    have hlen : fila.length = 0 :=
      Nat.eq_zero_of_le_zero (le_trans (Nat.le_add_right _ _) hfuel)
    have hfila : fila = [] := List.length_eq_zero.mp hlen
    subst hfila
    constructor
    · rintro ⟨c, hc⟩
      obtain ⟨q, hq, _⟩ := frontier_cobre hnn inv hc inv.destino_fora
      exact absurd hq (List.not_mem_nil q)
    · intro _; rfl
  | succ n ih =>
    intro fila visitados hfuel hN inv
    match fila, hfuel, hN, inv with
    | [], hfuel, hN, inv =>
      constructor
      · rintro ⟨c, hc⟩
        obtain ⟨q, hq, _⟩ := frontier_cobre hnn inv hc inv.destino_fora
        exact absurd hq (List.not_mem_nil q)
      · intro _; rfl
    | h :: t, hfuel, hN, inv =>
      obtain ⟨hmem, hminfst⟩ := hsel h t
      have hpathm : PathLen adj o (sel h t).2 (sel h t).1 := inv.paths _ hmem
      have hkey : (sel h t).2 ∉ visitados →
          ∀ c, PathLen adj o (sel h t).2 c → (sel h t).1 ≤ c := by
        intro hnv c hc
        obtain ⟨q, hq, hqle⟩ := frontier_cobre hnn inv hc hnv
        exact le_trans (hminfst q hq) hqle
      by_cases hdest : (sel h t).2 = destino
      · have hrun : dijkstraLoop adj sel destino (n + 1) (h :: t) visitados
            = ((sel h t).1 : WithTop ℚ) := by
          simp only [dijkstraLoop]
          rw [if_pos hdest]
        have hreach : Reachable adj o destino := ⟨(sel h t).1, hdest ▸ hpathm⟩
        constructor
        · intro _
          refine ⟨(sel h t).1, hrun, hdest ▸ hpathm, ?_⟩
          intro c hc
          exact hkey (hdest ▸ inv.destino_fora) c (hdest ▸ hc)
        · intro hnr; exact absurd hreach hnr
      · by_cases hvis : (sel h t).2 ∈ visitados
        · -- stale entry: drop it and continue
          have hrun : dijkstraLoop adj sel destino (n + 1) (h :: t) visitados
              = dijkstraLoop adj sel destino n (removeFirst (h :: t) (sel h t)) visitados := by
            simp only [dijkstraLoop]
            rw [if_neg hdest, if_pos hvis]
          have hlen : (removeFirst (h :: t) (sel h t)).length + 1 = (h :: t).length :=
            length_removeFirst _ _ hmem
          have hmed : medida adj N (removeFirst (h :: t) (sel h t)) visitados ≤ n := by
            simp only [medida] at hfuel ⊢
            omega
          have hN' : ∀ p ∈ removeFirst (h :: t) (sel h t), p.2 ∈ N :=
            fun p hp => hN p (removeFirst_subset _ _ p hp)
          have inv' : LoopInv adj o destino (removeFirst (h :: t) (sel h t)) visitados := by
            refine ⟨?_, ?_, ?_, inv.destino_fora⟩
            · exact fun p hp => inv.paths p (removeFirst_subset _ _ p hp)
            · rcases inv.origem_mem with h0 | h0
              · exact Or.inl h0
              · by_cases h0m : ((0 : ℚ), o) = sel h t
                · refine Or.inl ?_
                  have : o = (sel h t).2 := congrArg Prod.snd h0m
                  rw [this]; exact hvis
                · exact Or.inr (mem_removeFirst_of_ne _ h0m h0)
            · intro u hu q hq
              rcases inv.relax u hu q hq with h1 | ⟨d, hdmem, hd⟩
              · exact Or.inl h1
              · by_cases hqv : q.1 ∈ visitados
                · exact Or.inl hqv
                · refine Or.inr ⟨d, mem_removeFirst_of_ne _ ?_ hdmem, hd⟩
                  intro heq
                  exact hqv (by rw [show q.1 = (sel h t).2 from congrArg Prod.snd heq]; exact hvis)
          rw [hrun]
          exact ih _ _ hmed hN' inv'
        · -- settle the node and push its neighbours
          have hrun : dijkstraLoop adj sel destino (n + 1) (h :: t) visitados
              = dijkstraLoop adj sel destino n
                  (removeFirst (h :: t) (sel h t) ++ (adj (sel h t).2).filterMap fun p =>
                    if p.1 ∈ visitados then none else some ((sel h t).1 + p.2, p.1))
                  (insert (sel h t).2 visitados) := by
            simp only [dijkstraLoop]
            rw [if_neg hdest, if_neg hvis]
          have hkeyv := hkey hvis
          have hnovos_mem : ∀ q ∈ (adj (sel h t).2).filterMap fun p =>
              (if p.1 ∈ visitados then none else some ((sel h t).1 + p.2, p.1)),
              ∃ xw ∈ adj (sel h t).2, xw.1 ∉ visitados ∧ q = ((sel h t).1 + xw.2, xw.1) := by
            intro q hq
            rw [List.mem_filterMap] at hq
            obtain ⟨xw, hxw, hfq⟩ := hq
            by_cases hv : xw.1 ∈ visitados
            · rw [if_pos hv] at hfq; cases hfq
            · rw [if_neg hv] at hfq
              exact ⟨xw, hxw, hv, (Option.some_inj.mp hfq).symm⟩
          have hnovos_push : ∀ xw ∈ adj (sel h t).2, xw.1 ∉ visitados →
              ((sel h t).1 + xw.2, xw.1) ∈ (adj (sel h t).2).filterMap fun p =>
                (if p.1 ∈ visitados then none else some ((sel h t).1 + p.2, p.1)) := by
            intro xw hxw hv
            rw [List.mem_filterMap]
            exact ⟨xw, hxw, by rw [if_neg hv]⟩
          have hmed : medida adj N
              (removeFirst (h :: t) (sel h t) ++ (adj (sel h t).2).filterMap fun p =>
                (if p.1 ∈ visitados then none else some ((sel h t).1 + p.2, p.1)))
              (insert (sel h t).2 visitados) ≤ n := by
            have hmemN : (sel h t).2 ∈ N \ visitados :=
              Finset.mem_sdiff.mpr ⟨hN _ hmem, hvis⟩
            have hsplit : ((adj (sel h t).2).length +
                Finset.sum ((N \ visitados).erase (sel h t).2) fun v => (adj v).length)
                = Finset.sum (N \ visitados) fun v => (adj v).length := by
              simpa using Finset.add_sum_erase (N \ visitados) (fun v => (adj v).length) hmemN
            have herase : N \ insert (sel h t).2 visitados
                = (N \ visitados).erase (sel h t).2 := by
              ext x
              simp only [Finset.mem_sdiff, Finset.mem_erase, Finset.mem_insert]
              tauto
            have hlen : (removeFirst (h :: t) (sel h t)).length + 1 = (h :: t).length :=
              length_removeFirst _ _ hmem
            have hnlen : ((adj (sel h t).2).filterMap fun p =>
                (if p.1 ∈ visitados then none else some ((sel h t).1 + p.2, p.1))).length
                ≤ (adj (sel h t).2).length := List.length_filterMap_le _ _
            simp only [medida, List.length_append, herase] at hfuel ⊢
            omega
          have hN' : ∀ p ∈ removeFirst (h :: t) (sel h t) ++ (adj (sel h t).2).filterMap fun q =>
              (if q.1 ∈ visitados then none else some ((sel h t).1 + q.2, q.1)), p.2 ∈ N := by
            intro p hp
            rcases List.mem_append.mp hp with h1 | h2
            · exact hN p (removeFirst_subset _ _ p h1)
            · obtain ⟨xw, hxw, _, hpq⟩ := hnovos_mem p h2
              rw [hpq]
              exact hfecho _ xw hxw
          have inv' : LoopInv adj o destino
              (removeFirst (h :: t) (sel h t) ++ (adj (sel h t).2).filterMap fun p =>
                (if p.1 ∈ visitados then none else some ((sel h t).1 + p.2, p.1)))
              (insert (sel h t).2 visitados) := by
            refine ⟨?_, ?_, ?_, ?_⟩
            · intro p hp
              rcases List.mem_append.mp hp with h1 | h2
              · exact inv.paths p (removeFirst_subset _ _ p h1)
              · obtain ⟨xw, hxw, _, hpq⟩ := hnovos_mem p h2
                rw [hpq]
                exact PathLen.snoc hpathm hxw
            · rcases inv.origem_mem with h0 | h0
              · exact Or.inl (Finset.mem_insert_of_mem h0)
              · by_cases h0m : ((0 : ℚ), o) = sel h t
                · refine Or.inl ?_
                  have : o = (sel h t).2 := congrArg Prod.snd h0m
                  rw [this]; exact Finset.mem_insert_self _ _
                · exact Or.inr (List.mem_append_left _ (mem_removeFirst_of_ne _ h0m h0))
            · intro u hu q hq
              by_cases hqv : q.1 ∈ insert (sel h t).2 visitados
              · exact Or.inl hqv
              · have hqvis : q.1 ∉ visitados := fun hh => hqv (Finset.mem_insert_of_mem hh)
                have hqne : q.1 ≠ (sel h t).2 := fun hh => hqv (hh ▸ Finset.mem_insert_self _ _)
                rcases Finset.mem_insert.mp hu with h1 | h1
                · -- u is the newly settled node
                  subst h1
                  refine Or.inr ⟨(sel h t).1 + q.2,
                    List.mem_append_right _ (hnovos_push q hq hqvis), ?_⟩
                  intro c hc
                  exact add_le_add_right (hkeyv c hc) q.2
                · rcases inv.relax u h1 q hq with h2 | ⟨d, hdmem, hd⟩
                  · exact Or.inl (Finset.mem_insert_of_mem h2)
                  · refine Or.inr ⟨d, List.mem_append_left _
                      (mem_removeFirst_of_ne _ ?_ hdmem), hd⟩
                    intro heq
                    exact hqne (congrArg Prod.snd heq)
            · intro hh
              rcases Finset.mem_insert.mp hh with h1 | h1
              · exact hdest h1.symm
              · exact inv.destino_fora h1
          rw [hrun]
          exact ih _ _ hmed hN' inv'

/-- Entries of a sparse lookup come from the association list. -/
lemma Grafo.get_mem {g : Grafo} {no : String} :
    ∀ q ∈ Grafo.get g no, ∃ p ∈ g, q ∈ p.2 := by
  intro q hq
  rw [Grafo.get] at hq
  cases hfind : g.find? (fun p => p.1 = no) with
  | none => rw [hfind] at hq; exact absurd hq (List.not_mem_nil q)
  | some p =>
    rw [hfind] at hq
    exact ⟨p, List.mem_of_find?_eq_some hfind, hq⟩

/-- A nonnegative sparse graph yields a nonnegative neighbour function. -/
lemma nonnegAdj_lista {g : Grafo} (hg : NonnegGrafo g) : NonnegAdj (Grafo.get g) := by
  intro v q hq
  obtain ⟨p, hp, hqp⟩ := Grafo.get_mem q hq
  exact hg p hp q hqp

/-- Whatever starts in the accumulator stays in the inner node fold. -/
lemma mem_foldr_interno_base (l : List (String × ℚ)) (s : Finset String) :
    ∀ x ∈ s, x ∈ l.foldr (fun q s' => insert q.1 s') s := by
  induction l with
  | nil => intro x hx; exact hx
  | cons q resto ih =>
    intro x hx
    exact Finset.mem_insert_of_mem (ih x hx)

/-- Every listed neighbour lands in the inner node fold. -/
lemma mem_foldr_interno (l : List (String × ℚ)) (s : Finset String) :
    ∀ q ∈ l, q.1 ∈ l.foldr (fun q' s' => insert q'.1 s') s := by
  induction l with
  | nil => intro q hq; exact absurd hq (List.not_mem_nil q)
  | cons q₀ resto ih =>
    intro q hq
    rcases List.mem_cons.mp hq with h1 | h2
    · rw [h1]; exact Finset.mem_insert_self _ _
    · exact Finset.mem_insert_of_mem (ih q h2)

/-- Whatever starts in the accumulator stays in the outer graph fold. -/
lemma mem_foldr_grafo_base (g : Grafo) (s : Finset String) :
    ∀ x ∈ s, x ∈ g.foldr (fun p s' => insert p.1 (p.2.foldr (fun q s'' => insert q.1 s'') s')) s := by
  induction g with
  | nil => intro x hx; exact hx
  | cons p resto ih =>
    intro x hx
    exact Finset.mem_insert_of_mem (mem_foldr_interno_base _ _ x (ih x hx))

/-- Every neighbour listed anywhere in the graph lands in the node set. -/
lemma mem_nosLista_adj {g : Grafo} {o : String} :
    ∀ p ∈ g, ∀ q ∈ p.2, q.1 ∈ nosLista g o := by
  rw [nosLista]
  intro p hp q hq
  refine Finset.mem_insert_of_mem ?_
  induction g with
  | nil => exact absurd hp (List.not_mem_nil p)
  | cons p₀ resto ih =>
    rcases List.mem_cons.mp hp with h1 | h2
    · subst h1
      exact Finset.mem_insert_of_mem (mem_foldr_interno _ _ q hq)
    · exact Finset.mem_insert_of_mem (mem_foldr_interno_base _ _ _ (ih h2))

/-- Closure of the sparse neighbour function inside its node set. -/
lemma fecho_lista (g : Grafo) (o : String) :
    ∀ v : String, ∀ q ∈ Grafo.get g v, q.1 ∈ nosLista g o := by
  intro v q hq
  obtain ⟨p, hp, hqp⟩ := Grafo.get_mem q hq
  exact mem_nosLista_adj p hp q hqp

/-- Entries of the dense scan come from a matrix row with a finite cell. -/
lemma adjMatriz_mem {matriz : Matriz} {idx : String → ℕ} {nodes : List String} {no : String} :
    ∀ q ∈ adjMatriz matriz idx nodes no,
      ∃ jp ∈ (matriz.getD (idx no) []).enum, ∃ h : jp.2 ≠ ⊤,
        q = (nodes.getD jp.1 "", jp.2.untop h) := by
  intro q hq
  rw [adjMatriz, List.mem_filterMap] at hq
  obtain ⟨jp, hjp, hfq⟩ := hq
  by_cases hT : jp.2 = ⊤
  · rw [dif_pos hT] at hfq; cases hfq
  · rw [dif_neg hT] at hfq
    exact ⟨jp, hjp, hT, (Option.some_inj.mp hfq).symm⟩

/-- A nonnegative matrix yields a nonnegative neighbour function. -/
lemma nonnegAdj_matriz {matriz : Matriz} {idx : String → ℕ} {nodes : List String}
    (hm : NonnegMatriz matriz) : NonnegAdj (adjMatriz matriz idx nodes) := by
  intro v q hq
  obtain ⟨jp, hjp, hT, hq'⟩ := adjMatriz_mem q hq
  by_cases hi : idx v < matriz.length
  · have hrow : matriz.getD (idx v) [] = matriz[idx v] := List.getD_eq_getElem _ _ hi
    have hrmem : matriz[idx v] ∈ matriz := List.getElem_mem hi
    rw [hrow] at hjp
    obtain ⟨hj, hcell⟩ := List.mem_enum hjp
    have hcmem : jp.2 ∈ matriz[idx v] := hcell ▸ List.getElem_mem hj
    have h0 : (0 : WithTop ℚ) ≤ jp.2 := hm _ hrmem _ hcmem
    have : ((0 : ℚ) : WithTop ℚ) ≤ ((jp.2.untop hT : ℚ) : WithTop ℚ) := by
      rw [WithTop.coe_untop, WithTop.coe_zero]
      exact h0
    have hle : (0 : ℚ) ≤ jp.2.untop hT := WithTop.coe_le_coe.mp this
    rw [hq']
    exact hle
  · have hrow : matriz.getD (idx v) [] = [] :=
      List.getD_eq_default _ _ (le_of_not_lt hi)
    rw [hrow] at hjp
    exact absurd hjp (List.not_mem_nil jp)

/-- Closure of the dense neighbour function inside its node set. -/
lemma fecho_matriz (matriz : Matriz) (idx : String → ℕ) (nodes : List String) (o : String) :
    ∀ v : String, ∀ q ∈ adjMatriz matriz idx nodes v, q.1 ∈ nosMatriz nodes o := by
  intro v q hq
  obtain ⟨jp, _, hT, hq'⟩ := adjMatriz_mem q hq
  rw [hq', nosMatriz]
  by_cases hj : jp.1 < nodes.length
  · have : nodes.getD jp.1 "" = nodes[jp.1] := List.getD_eq_getElem _ _ hj
    rw [this]
    exact Finset.mem_insert_of_mem (Finset.mem_insert_of_mem
      (List.mem_toFinset.mpr (List.getElem_mem hj)))
  · have : nodes.getD jp.1 "" = "" := List.getD_eq_default _ _ (le_of_not_lt hj)
    rw [this]
    exact Finset.mem_insert_self _ _

/-- Shortest values are unique. -/
lemma IsShortest.unico {adj : String → List (String × ℚ)} {o d : String} {r₁ r₂ : ℚ}
    (h₁ : IsShortest adj o d r₁) (h₂ : IsShortest adj o d r₂) : r₁ = r₂ :=
  le_antisymm (h₁.2 _ h₂.1) (h₂.2 _ h₁.1)

/-- Specification of a whole run seeded with `(0, origem)`, for any selection
satisfying the minimality contract and any closed node set containing the
origin, with exactly the fuel the entry points supply. -/
lemma dijkstra_run_spec (adj : String → List (String × ℚ))
    (sel : Entrada → List Entrada → Entrada) (hsel : SelEscolheMinimo sel)
    (N : Finset String) (hfecho : ∀ v : String, ∀ q ∈ adj v, q.1 ∈ N)
    (hnn : NonnegAdj adj) (o destino : String) (hoN : o ∈ N) :
    (Reachable adj o destino →
      ∃ r : ℚ, dijkstraLoop adj sel destino (1 + Finset.sum N fun v => (adj v).length)
          [(0, o)] ∅ = (r : WithTop ℚ) ∧ IsShortest adj o destino r) ∧
    (¬ Reachable adj o destino →
      dijkstraLoop adj sel destino (1 + Finset.sum N fun v => (adj v).length)
        [(0, o)] ∅ = ⊤) := by
  apply dijkstraLoop_spec adj sel hsel N hfecho hnn o destino
  · rw [medida, Finset.sdiff_empty]
    simp
  · intro p hp
    rw [List.mem_singleton.mp hp]
    exact hoN
  · refine ⟨?_, Or.inr (List.mem_singleton.mpr rfl), ?_, Finset.not_mem_empty _⟩
    · intro p hp
      rw [List.mem_singleton.mp hp]
      exact PathLen.nil
    · intro u hu
      exact absurd hu (Finset.not_mem_empty u)

/-- Correctness of the sparse heap strategy. -/
lemma dijkstra_lista_heap_spec {g : Grafo} (hg : NonnegGrafo g) (o d : String) :
    (Reachable (Grafo.get g) o d →
      ∃ r : ℚ, dijkstra_lista_heap g o d = (r : WithTop ℚ) ∧ IsShortest (Grafo.get g) o d r) ∧
    (¬ Reachable (Grafo.get g) o d → dijkstra_lista_heap g o d = ⊤) :=
  dijkstra_run_spec (Grafo.get g) selHeap selHeap_escolheMinimo (nosLista g o)
    (fecho_lista g o) (nonnegAdj_lista hg) o d (Finset.mem_insert_self _ _)

/-- Correctness of the sparse linear-scan strategy. -/
lemma dijkstra_lista_simples_spec {g : Grafo} (hg : NonnegGrafo g) (o d : String) :
    (Reachable (Grafo.get g) o d →
      ∃ r : ℚ, dijkstra_lista_simples g o d = (r : WithTop ℚ) ∧
        IsShortest (Grafo.get g) o d r) ∧
    (¬ Reachable (Grafo.get g) o d → dijkstra_lista_simples g o d = ⊤) :=
  dijkstra_run_spec (Grafo.get g) selSimples selSimples_escolheMinimo (nosLista g o)
    (fecho_lista g o) (nonnegAdj_lista hg) o d (Finset.mem_insert_self _ _)

/-- Correctness of the dense heap strategy. -/
lemma dijkstra_matriz_heap_spec {matriz : Matriz} {idx : String → ℕ} {nodes : List String}
    (hm : NonnegMatriz matriz) (o d : String) :
    (Reachable (adjMatriz matriz idx nodes) o d →
      ∃ r : ℚ, dijkstra_matriz_heap matriz idx nodes o d = (r : WithTop ℚ) ∧
        IsShortest (adjMatriz matriz idx nodes) o d r) ∧
    (¬ Reachable (adjMatriz matriz idx nodes) o d →
      dijkstra_matriz_heap matriz idx nodes o d = ⊤) :=
  dijkstra_run_spec (adjMatriz matriz idx nodes) selHeap selHeap_escolheMinimo
    (nosMatriz nodes o) (fecho_matriz matriz idx nodes o) (nonnegAdj_matriz hm) o d
    (Finset.mem_insert_of_mem (Finset.mem_insert_self _ _))

/-- Correctness of the dense linear-scan strategy. -/
lemma dijkstra_matriz_simples_spec {matriz : Matriz} {idx : String → ℕ} {nodes : List String}
    (hm : NonnegMatriz matriz) (o d : String) :
    (Reachable (adjMatriz matriz idx nodes) o d →
      ∃ r : ℚ, dijkstra_matriz_simples matriz idx nodes o d = (r : WithTop ℚ) ∧
        IsShortest (adjMatriz matriz idx nodes) o d r) ∧
    (¬ Reachable (adjMatriz matriz idx nodes) o d →
      dijkstra_matriz_simples matriz idx nodes o d = ⊤) :=
  dijkstra_run_spec (adjMatriz matriz idx nodes) selSimples selSimples_escolheMinimo
    (nosMatriz nodes o) (fecho_matriz matriz idx nodes o) (nonnegAdj_matriz hm) o d
    (Finset.mem_insert_of_mem (Finset.mem_insert_self _ _))

/-- C1: for every origin and destination, each of the four shortest-path
strategies returns the length of a shortest path in the representation it
queries when one exists, and the `inf` sentinel when the frontier empties
without reaching the destination, despite the lazy duplicate frontier and the
early exit on extracting the target. Stated under the specification's ambient
invariant that all stored distances are nonnegative. -/
theorem C1_dijkstra_correto :
    ∀ (g : Grafo), NonnegGrafo g →
    ∀ (matriz : Matriz) (idx : String → ℕ) (nodes : List String), NonnegMatriz matriz →
    ∀ o d : String,
      (Reachable (Grafo.get g) o d →
        ∃ r : ℚ, dijkstra_lista_heap g o d = (r : WithTop ℚ) ∧
          dijkstra_lista_simples g o d = (r : WithTop ℚ) ∧
          IsShortest (Grafo.get g) o d r) ∧
      (¬ Reachable (Grafo.get g) o d →
        dijkstra_lista_heap g o d = ⊤ ∧ dijkstra_lista_simples g o d = ⊤) ∧
      (Reachable (adjMatriz matriz idx nodes) o d →
        ∃ r : ℚ, dijkstra_matriz_heap matriz idx nodes o d = (r : WithTop ℚ) ∧
          dijkstra_matriz_simples matriz idx nodes o d = (r : WithTop ℚ) ∧
          IsShortest (adjMatriz matriz idx nodes) o d r) ∧
      (¬ Reachable (adjMatriz matriz idx nodes) o d →
        dijkstra_matriz_heap matriz idx nodes o d = ⊤ ∧
        dijkstra_matriz_simples matriz idx nodes o d = ⊤) := by
  intro g hg matriz idx nodes hm o d
  refine ⟨?_, ?_, ?_, ?_⟩
  · intro hreach
    obtain ⟨r₁, e₁, s₁⟩ := (dijkstra_lista_heap_spec hg o d).1 hreach
    obtain ⟨r₂, e₂, s₂⟩ := (dijkstra_lista_simples_spec hg o d).1 hreach
    refine ⟨r₁, e₁, ?_, s₁⟩
    rw [IsShortest.unico s₂ s₁] at e₂
    exact e₂
  · exact fun h => ⟨(dijkstra_lista_heap_spec hg o d).2 h,
      (dijkstra_lista_simples_spec hg o d).2 h⟩
  · intro hreach
    obtain ⟨r₁, e₁, s₁⟩ := (@dijkstra_matriz_heap_spec matriz idx nodes hm o d).1 hreach
    obtain ⟨r₂, e₂, s₂⟩ := (@dijkstra_matriz_simples_spec matriz idx nodes hm o d).1 hreach
    refine ⟨r₁, e₁, ?_, s₁⟩
    rw [IsShortest.unico s₂ s₁] at e₂
    exact e₂
  · exact fun h => ⟨(@dijkstra_matriz_heap_spec matriz idx nodes hm o d).2 h,
      (@dijkstra_matriz_simples_spec matriz idx nodes hm o d).2 h⟩

/-- Witness for C1 on concrete inputs: both representations with a reachable
pair, all hypotheses discharged by computation. -/
theorem C1_dijkstra_correto_witness :
    (∃ r : ℚ, dijkstra_lista_heap grafoExemplo "a" "dest" = (r : WithTop ℚ) ∧
      dijkstra_lista_simples grafoExemplo "a" "dest" = (r : WithTop ℚ) ∧
      IsShortest (Grafo.get grafoExemplo) "a" "dest" r) ∧
    (∃ r : ℚ, dijkstra_matriz_heap matrizExemplo idxExemplo nodesExemplo "a" "b" = (r : WithTop ℚ) ∧
      dijkstra_matriz_simples matrizExemplo idxExemplo nodesExemplo "a" "b" = (r : WithTop ℚ) ∧
      IsShortest (adjMatriz matrizExemplo idxExemplo nodesExemplo) "a" "b" r) := by
  have h1 : ("b", (1 : ℚ)) ∈ Grafo.get grafoExemplo "a" := by decide
  have h2 : ("dest", (1 : ℚ)) ∈ Grafo.get grafoExemplo "b" := by decide
  have h3 : ("b", (1 : ℚ)) ∈ adjMatriz matrizExemplo idxExemplo nodesExemplo "a" := by decide
  exact ⟨(C1_dijkstra_correto grafoExemplo (by decide) matrizExemplo idxExemplo nodesExemplo
      (by decide) "a" "dest").1
      ⟨0 + 1 + 1, PathLen.snoc (PathLen.snoc PathLen.nil h1) h2⟩,
    (C1_dijkstra_correto grafoExemplo (by decide) matrizExemplo idxExemplo nodesExemplo
      (by decide) "a" "b").2.2.1
      ⟨0 + 1, PathLen.snoc PathLen.nil h3⟩⟩

/-- C2: over one and the same graph representation the heap-based and the
linear-scan frontier strategies return identical results, for every origin
and destination. Stated under the specification's nonnegative-distance
invariant. -/
theorem C2_heap_e_simples_identicos :
    ∀ (g : Grafo), NonnegGrafo g →
    ∀ (matriz : Matriz) (idx : String → ℕ) (nodes : List String), NonnegMatriz matriz →
    ∀ o d : String,
      dijkstra_lista_heap g o d = dijkstra_lista_simples g o d ∧
      dijkstra_matriz_heap matriz idx nodes o d = dijkstra_matriz_simples matriz idx nodes o d := by
  intro g hg matriz idx nodes hm o d
  constructor
  · by_cases hreach : Reachable (Grafo.get g) o d
    · obtain ⟨r₁, e₁, s₁⟩ := (dijkstra_lista_heap_spec hg o d).1 hreach
      obtain ⟨r₂, e₂, s₂⟩ := (dijkstra_lista_simples_spec hg o d).1 hreach
      rw [e₁, e₂, IsShortest.unico s₁ s₂]
    · rw [(dijkstra_lista_heap_spec hg o d).2 hreach,
        (dijkstra_lista_simples_spec hg o d).2 hreach]
  · by_cases hreach : Reachable (adjMatriz matriz idx nodes) o d
    · obtain ⟨r₁, e₁, s₁⟩ := (@dijkstra_matriz_heap_spec matriz idx nodes hm o d).1 hreach
      obtain ⟨r₂, e₂, s₂⟩ := (@dijkstra_matriz_simples_spec matriz idx nodes hm o d).1 hreach
      rw [e₁, e₂, IsShortest.unico s₁ s₂]
    · rw [(@dijkstra_matriz_heap_spec matriz idx nodes hm o d).2 hreach,
        (@dijkstra_matriz_simples_spec matriz idx nodes hm o d).2 hreach]

/-- Witness for C2 on concrete inputs with the hypotheses computed away. -/
theorem C2_heap_e_simples_identicos_witness :
    dijkstra_lista_heap grafoExemplo "a" "dest" = dijkstra_lista_simples grafoExemplo "a" "dest" ∧
    dijkstra_matriz_heap matrizExemplo idxExemplo nodesExemplo "a" "dest"
      = dijkstra_matriz_simples matrizExemplo idxExemplo nodesExemplo "a" "dest" :=
  C2_heap_e_simples_identicos grafoExemplo (by decide) matrizExemplo idxExemplo nodesExemplo
    (by decide) "a" "dest"

/-- A run whose origin equals the destination stops at the very first
extraction, before the visited check and any neighbour expansion. -/
lemma dijkstraLoop_origem (adj : String → List (String × ℚ))
    (sel : Entrada → List Entrada → Entrada) (o : String)
    (hsel0 : sel (0, o) [] = (0, o)) (n : ℕ) (vis : Finset String) :
    dijkstraLoop adj sel o (n + 1) [(0, o)] vis = ((0 : ℚ) : WithTop ℚ) := by
  simp [dijkstraLoop, hsel0]

/-- C10: when origin and destination coincide, all four strategies return 0,
for every graph and matrix, even if the node is absent or has no edges. -/
theorem C10_origem_igual_destino :
    ∀ (g : Grafo) (matriz : Matriz) (idx : String → ℕ) (nodes : List String) (o : String),
      dijkstra_lista_heap g o o = ((0 : ℚ) : WithTop ℚ) ∧
      dijkstra_lista_simples g o o = ((0 : ℚ) : WithTop ℚ) ∧
      dijkstra_matriz_heap matriz idx nodes o o = ((0 : ℚ) : WithTop ℚ) ∧
      dijkstra_matriz_simples matriz idx nodes o o = ((0 : ℚ) : WithTop ℚ) := by
  intro g matriz idx nodes o
  obtain ⟨k₁, hk₁⟩ : ∃ k, fuelLista g o = k + 1 :=
    ⟨_, by rw [fuelLista, Nat.add_comm]⟩
  obtain ⟨k₂, hk₂⟩ : ∃ k, fuelMatriz matriz idx nodes o = k + 1 :=
    ⟨_, by rw [fuelMatriz, Nat.add_comm]⟩
  refine ⟨?_, ?_, ?_, ?_⟩
  · rw [dijkstra_lista_heap, hk₁]
    exact dijkstraLoop_origem _ _ _ rfl _ _
  · rw [dijkstra_lista_simples, hk₁]
    exact dijkstraLoop_origem _ _ _ rfl _ _
  · rw [dijkstra_matriz_heap, hk₂]
    exact dijkstraLoop_origem _ _ _ rfl _ _
  · rw [dijkstra_matriz_simples, hk₂]
    exact dijkstraLoop_origem _ _ _ rfl _ _

/-- Characters with equal code points are equal. -/
lemma char_eq_of_toNat_eq {a b : Char} (h : a.toNat = b.toNat) : a = b :=
  Char.ext (UInt32.toNat.inj h)

/-- Strings with equal character data are equal. -/
lemma string_eq_of_data_eq {a b : String} (h : a.data = b.data) : a = b := by
  cases a
  cases b
  simp only at h
  rw [h]

/-- Transitivity of the code-point order on character lists. -/
lemma charsLt_trans : ∀ {a b c : List Char},
    charsLt a b = true → charsLt b c = true → charsLt a c = true := by
  intro a
  induction a with
  | nil =>
    intro b c hab hbc
    match b, c with
    | [], _ => rw [charsLt] at hab; cases hab
    | _ :: _, [] => rw [charsLt] at hbc; cases hbc
    | _ :: _, _ :: _ => rw [charsLt]
  | cons x xs ih =>
    intro b c hab hbc
    match b, c with
    | [], _ => rw [charsLt] at hab; cases hab
    | _ :: _, [] => rw [charsLt] at hbc; cases hbc
    | y :: ys, z :: zs =>
      rw [charsLt] at hab hbc ⊢
      by_cases h1 : x.toNat < y.toNat
      · by_cases h2 : y.toNat < z.toNat
        · rw [if_pos (show x.toNat < z.toNat by omega)]
        · by_cases h3 : z.toNat < y.toNat
          · rw [if_neg h2, if_pos h3] at hbc
            cases hbc
          · rw [if_pos (show x.toNat < z.toNat by omega)]
      · rw [if_neg h1] at hab
        by_cases h1' : y.toNat < x.toNat
        · rw [if_pos h1'] at hab
          cases hab
        · rw [if_neg h1'] at hab
          by_cases h2 : y.toNat < z.toNat
          · rw [if_pos (show x.toNat < z.toNat by omega)]
          · rw [if_neg h2] at hbc
            by_cases h3 : z.toNat < y.toNat
            · rw [if_pos h3] at hbc
              cases hbc
            · rw [if_neg h3] at hbc
              rw [if_neg (show ¬ x.toNat < z.toNat by omega),
                if_neg (show ¬ z.toNat < x.toNat by omega)]
              exact ih hab hbc

/-- Connectedness: lists not below each other in either direction are equal. -/
lemma charsLt_conn : ∀ {a b : List Char},
    charsLt a b = false → charsLt b a = false → a = b := by
  intro a
  induction a with
  | nil =>
    intro b hab _
    match b with
    | [] => rfl
    | _ :: _ => rw [charsLt] at hab; cases hab
  | cons x xs ih =>
    intro b hab hba
    match b with
    | [] => rw [charsLt] at hba; cases hba
    | y :: ys =>
      rw [charsLt] at hab hba
      by_cases h1 : x.toNat < y.toNat
      · rw [if_pos h1] at hab; cases hab
      · by_cases h2 : y.toNat < x.toNat
        · rw [if_pos h2] at hba; cases hba
        · rw [if_neg h1, if_neg h2] at hab
          rw [if_neg h2, if_neg h1] at hba
          have hx : x = y := char_eq_of_toNat_eq (le_antisymm (le_of_not_lt h2) (le_of_not_lt h1))
          rw [hx, ih hab hba]

/-- Transitivity of the frontier tuple order. -/
lemma entradaLt_trans {p q r : Entrada}
    (hpq : entradaLt p q = true) (hqr : entradaLt q r = true) : entradaLt p r = true := by
  simp only [entradaLt, Bool.or_eq_true, decide_eq_true_eq, Bool.and_eq_true] at hpq hqr ⊢
  rcases hpq with h1 | ⟨h1, h1'⟩
  · rcases hqr with h2 | ⟨h2, _⟩
    · exact Or.inl (lt_trans h1 h2)
    · exact Or.inl (h2 ▸ h1)
  · rcases hqr with h2 | ⟨h2, h2'⟩
    · exact Or.inl (h1 ▸ h2)
    · exact Or.inr ⟨h1.trans h2, charsLt_trans h1' h2'⟩

/-- Connectedness of the frontier tuple order. -/
lemma entradaLt_conn {p q : Entrada}
    (hpq : entradaLt p q = false) (hqp : entradaLt q p = false) : p = q := by
  simp only [entradaLt, Bool.or_eq_false_iff, decide_eq_false_iff_not,
    Bool.and_eq_false_iff, decide_eq_false_iff_not] at hpq hqp
  have h1 : p.1 = q.1 := le_antisymm (le_of_not_lt hqp.1) (le_of_not_lt hpq.1)
  rcases hpq.2 with h2 | h2
  · exact absurd h1 (by simpa using h2)
  · rcases hqp.2 with h3 | h3
    · exact absurd h1.symm (by simpa using h3)
    · have h4 : p.2 = q.2 := string_eq_of_data_eq
        (charsLt_conn (by simpa [strLt] using h2) (by simpa [strLt] using h3))
      exact Prod.ext h1 h4


/-- Irreflexivity of the code-point order on character lists. -/
lemma charsLt_irrefl : ∀ (a : List Char), charsLt a a = false := by
  intro a
  induction a with
  | nil => rfl
  | cons x xs ih =>
    rw [charsLt, if_neg (lt_irrefl x.toNat), if_neg (lt_irrefl x.toNat)]
    exact ih

/-- Irreflexivity of the frontier tuple order. -/
lemma entradaLt_irrefl (p : Entrada) : entradaLt p p = false := by
  simp [entradaLt, strLt, charsLt_irrefl]

/-- The heap scan returns the least frontier entry under the tuple order. -/
lemma selHeap_lexmin : ∀ (t : List Entrada) (m : Entrada),
    selHeap m t ∈ m :: t ∧ ∀ p ∈ m :: t, entradaLt p (selHeap m t) = false := by
  intro t
  induction t with
  | nil =>
    intro m
    refine ⟨List.mem_cons_self m [], ?_⟩
    intro p hp
    rw [List.mem_singleton.mp hp, selHeap]
    exact entradaLt_irrefl m
  | cons p r ih =>
    intro m
    have hstep : selHeap m (p :: r) = selHeap (if entradaLt p m then p else m) r := rfl
    by_cases hc : entradaLt p m = true
    · rw [hstep, if_pos hc]
      obtain ⟨hmem, hmin⟩ := ih p
      constructor
      · rcases List.mem_cons.mp hmem with h1 | h2
        · rw [h1]; exact List.mem_cons_of_mem _ (List.mem_cons_self _ _)
        · exact List.mem_cons_of_mem _ (List.mem_cons_of_mem _ h2)
      · intro q hq
        rcases List.mem_cons.mp hq with h1 | h2
        · -- q = m: were it below the result, transitivity through p would
          -- contradict the minimality of the result over p :: r
          subst h1
          by_cases habs : entradaLt q (selHeap p r) = true
          · have hps : entradaLt p (selHeap p r) = false :=
              hmin p (List.mem_cons_self _ _)
            have hcontra : entradaLt p (selHeap p r) = true := entradaLt_trans hc habs
            rw [hps] at hcontra
            cases hcontra
          · exact Bool.not_eq_true _ ▸ habs
        · exact hmin q h2
    · have hc' : entradaLt p m = false := Bool.not_eq_true _ ▸ hc
      rw [hstep, if_neg hc]
      obtain ⟨hmem, hmin⟩ := ih m
      constructor
      · rcases List.mem_cons.mp hmem with h1 | h2
        · rw [h1]; exact List.mem_cons_self _ _
        · exact List.mem_cons_of_mem _ (List.mem_cons_of_mem _ h2)
      · intro q hq
        rcases List.mem_cons.mp hq with h1 | h2
        · rw [h1]; exact hmin m (List.mem_cons_self _ _)
        · rcases List.mem_cons.mp h2 with h3 | h4
          · -- q = p: the result is m itself or strictly below m; in both
            -- cases p below the result would put p below m
            subst h3
            by_cases habs : entradaLt q (selHeap m r) = true
            · have hms : entradaLt m (selHeap m r) = false :=
                hmin m (List.mem_cons_self _ _)
              by_cases hsm : entradaLt (selHeap m r) m = true
              · have hcontra : entradaLt q m = true := entradaLt_trans habs hsm
                rw [hc'] at hcontra
                cases hcontra
              · have heq : m = selHeap m r :=
                  entradaLt_conn hms (Bool.not_eq_true _ ▸ hsm)
                rw [← heq, hc'] at habs
                cases habs
            · exact Bool.not_eq_true _ ▸ habs
          · exact hmin q (List.mem_cons_of_mem _ h4)

/-- The heap strategies break distance ties by node identifiers. -/
lemma selHeap_desempata : SelDesempataPorNo selHeap :=
  fun h t => selHeap_lexmin t h

/-- The linear scan returns the first entry attaining the minimal distance:
the structural split witnessing the first position. -/
lemma selSimples_split : ∀ (t : List Entrada) (m : Entrada),
    ∃ l₁ l₂, m :: t = l₁ ++ selSimples m t :: l₂ ∧ ∀ p ∈ l₁, (selSimples m t).1 < p.1 := by
  intro t
  induction t with
  | nil =>
    intro m
    exact ⟨[], [], rfl, fun p hp => absurd hp (List.not_mem_nil p)⟩
  | cons p r ih =>
    intro m
    by_cases hc : p.1 < m.1
    · have hstep : selSimples m (p :: r) = selSimples p r := by
        rw [selSimples, if_pos hc]
      obtain ⟨l₁, l₂, hsplit, hstrict⟩ := ih p
      refine ⟨m :: l₁, l₂, ?_, ?_⟩
      · rw [hstep]
        simpa using hsplit
      · intro q hq
        rcases List.mem_cons.mp hq with h1 | h2
        · have hle : (selSimples p r).1 ≤ p.1 :=
            (selSimples_escolheMinimo p r).2 p (List.mem_cons_self _ _)
          rw [hstep, h1]
          exact lt_of_le_of_lt hle hc
        · rw [hstep]
          exact hstrict q h2
    · have hstep : selSimples m (p :: r) = selSimples m r := by
        rw [selSimples, if_neg hc]
      obtain ⟨l₁, l₂, hsplit, hstrict⟩ := ih m
      cases l₁ with
      | nil =>
        have h1 : m = selSimples m r ∧ r = l₂ := by
          simpa using hsplit
        refine ⟨[], p :: r, ?_, fun q hq => absurd hq (List.not_mem_nil q)⟩
        rw [hstep, ← h1.1]
        rfl
      | cons a l₁' =>
        have h1 : a = m ∧ r = l₁' ++ selSimples m r :: l₂ := by
          have h2 := hsplit
          simp only [List.cons_append, List.cons.injEq] at h2
          exact ⟨h2.1.symm, h2.2⟩
        refine ⟨m :: p :: l₁', l₂, ?_, ?_⟩
        · rw [hstep]
          simp only [List.cons_append]
          rw [← h1.2]
        · intro q hq
          have hsm : (selSimples m r).1 < m.1 := by
            have h3 := hstrict a (List.mem_cons_self _ _)
            rw [h1.1] at h3
            exact h3
          rcases List.mem_cons.mp hq with hh | hh
          · rw [hh, hstep]; exact hsm
          · rcases List.mem_cons.mp hh with hh' | hh'
            · rw [hh', hstep]
              exact lt_of_lt_of_le hsm (le_of_not_lt hc)
            · rw [hstep]
              exact hstrict q (List.mem_cons_of_mem _ hh')

/-- The linear scan satisfies the first-minimum characterisation. -/
lemma selSimples_primeiroMinimo : SelPrimeiroMinimo selSimples :=
  fun h t => ⟨(selSimples_escolheMinimo h t).2, selSimples_split t h⟩

/-- C8 counterexample: the linear-scan extraction used by the two `simples`
strategies does not resolve equal-distance ties by node identifiers. On the
frontier `[(5, "b"), (5, "a")]` it selects `(5, "b")` by position, although
`(5, "a")` is strictly below it in the `(distancia, no)` tuple order. -/
theorem C8_contraexemplo : ¬ SelDesempataPorNo selSimples := by
  intro h
  have h2 := (h ((5 : ℚ), "b") [((5 : ℚ), "a")]).2 ((5 : ℚ), "a")
    (List.mem_cons_of_mem _ (List.mem_cons_self _ _))
  have h3 : entradaLt ((5 : ℚ), "a") (selSimples ((5 : ℚ), "b") [((5 : ℚ), "a")]) = true := by
    decide
  rw [h2] at h3
  cases h3

/-- C8 as amended: the heap strategies' extraction resolves distance ties by
comparing node identifiers (it returns the least frontier entry under the
tuple order on `(distancia, no)`), while the linear-scan strategies' extraction
returns the first entry attaining the minimal distance and never compares node
identifiers. -/
theorem C8_desempate :
    SelDesempataPorNo selHeap ∧ SelPrimeiroMinimo selSimples :=
  ⟨selHeap_desempata, selSimples_primeiroMinimo⟩

/-- Witness for C8 on a concrete tied frontier. -/
theorem C8_desempate_witness :
    selHeap ((5 : ℚ), "b") [((5 : ℚ), "a")] ∈ [((5 : ℚ), "b"), ((5 : ℚ), "a")] ∧
    entradaLt ((5 : ℚ), "a") (selHeap ((5 : ℚ), "b") [((5 : ℚ), "a")]) = false :=
  ⟨(C8_desempate.1 ((5 : ℚ), "b") [((5 : ℚ), "a")]).1,
   (C8_desempate.1 ((5 : ℚ), "b") [((5 : ℚ), "a")]).2 ((5 : ℚ), "a")
     (List.mem_cons_of_mem _ (List.mem_cons_self _ _))⟩

/-- C3 counterexample: dense-graph strategies do not agree with sparse-graph
strategies on every recorded centre-to-destination pair. For
(Belém, Belo Horizonte) the recorded direct distance is 3000, which is what
the dense matrix returns, but the bidirectional sparse graph admits the
shorter route Belém → Goiânia → Brasília → Belo Horizonte of length 2950. -/
theorem C3_contraexemplo :
    dijkstra_lista_heap gerar_lista_adjacencia "Belém" "Belo Horizonte"
      = ((2950 : ℚ) : WithTop ℚ) ∧
    dijkstra_matriz_heap gerar_matriz_adjacencia idxGerado nodesGerados "Belém" "Belo Horizonte"
      = ((3000 : ℚ) : WithTop ℚ) ∧
    dijkstra_matriz_heap gerar_matriz_adjacencia idxGerado nodesGerados "Belém" "Belo Horizonte"
      ≠ dijkstra_lista_heap gerar_lista_adjacencia "Belém" "Belo Horizonte" := by
  have h1 : dijkstra_lista_heap gerar_lista_adjacencia "Belém" "Belo Horizonte"
      = ((2950 : ℚ) : WithTop ℚ) := by decide
  have h2 : dijkstra_matriz_heap gerar_matriz_adjacencia idxGerado nodesGerados
      "Belém" "Belo Horizonte" = ((3000 : ℚ) : WithTop ℚ) := by decide
  refine ⟨h1, h2, ?_⟩
  rw [h1, h2]
  decide

/-- C3 as amended: the sparse graph is bidirectional (both directed edges of
every recorded pair are present) while the dense matrix only has
centre-to-destination edges. For every recorded (centre, destination) pair the
dense strategies return exactly the recorded direct distance, and for the
reverse destination-to-centre query they return the unreachable sentinel; the
sparse strategies return a finite distance that is at most the recorded direct
distance (it can be smaller, as at (Belém, Belo Horizonte)). Concretely,
distance(São Paulo, Rio de Janeiro) is 450 in the sparse graph in both
directions, and in the dense graph the forward query is 450 while the reverse
query is unreachable. -/
theorem C3_representacoes :
    (∀ cd ∈ from_distancias,
      (cd.1.2, cd.2) ∈ Grafo.get gerar_lista_adjacencia cd.1.1 ∧
      (cd.1.1, cd.2) ∈ Grafo.get gerar_lista_adjacencia cd.1.2 ∧
      dijkstra_matriz_heap gerar_matriz_adjacencia idxGerado nodesGerados cd.1.1 cd.1.2
        = (cd.2 : WithTop ℚ) ∧
      dijkstra_matriz_simples gerar_matriz_adjacencia idxGerado nodesGerados cd.1.1 cd.1.2
        = (cd.2 : WithTop ℚ) ∧
      dijkstra_matriz_heap gerar_matriz_adjacencia idxGerado nodesGerados cd.1.2 cd.1.1 = ⊤ ∧
      dijkstra_matriz_simples gerar_matriz_adjacencia idxGerado nodesGerados cd.1.2 cd.1.1 = ⊤ ∧
      ∃ r : ℚ, dijkstra_lista_heap gerar_lista_adjacencia cd.1.1 cd.1.2 = (r : WithTop ℚ) ∧
        dijkstra_lista_simples gerar_lista_adjacencia cd.1.1 cd.1.2 = (r : WithTop ℚ) ∧
        r ≤ cd.2) ∧
    dijkstra_lista_heap gerar_lista_adjacencia "São Paulo" "Rio de Janeiro"
      = ((450 : ℚ) : WithTop ℚ) ∧
    dijkstra_lista_heap gerar_lista_adjacencia "Rio de Janeiro" "São Paulo"
      = ((450 : ℚ) : WithTop ℚ) ∧
    dijkstra_lista_simples gerar_lista_adjacencia "São Paulo" "Rio de Janeiro"
      = ((450 : ℚ) : WithTop ℚ) ∧
    dijkstra_lista_simples gerar_lista_adjacencia "Rio de Janeiro" "São Paulo"
      = ((450 : ℚ) : WithTop ℚ) ∧
    dijkstra_matriz_heap gerar_matriz_adjacencia idxGerado nodesGerados
      "São Paulo" "Rio de Janeiro" = ((450 : ℚ) : WithTop ℚ) ∧
    dijkstra_matriz_heap gerar_matriz_adjacencia idxGerado nodesGerados
      "Rio de Janeiro" "São Paulo" = ⊤ := by
  have hnn : NonnegGrafo gerar_lista_adjacencia := by decide
  have hdec : ∀ cd ∈ from_distancias,
      (cd.1.2, cd.2) ∈ Grafo.get gerar_lista_adjacencia cd.1.1 ∧
      (cd.1.1, cd.2) ∈ Grafo.get gerar_lista_adjacencia cd.1.2 ∧
      dijkstra_matriz_heap gerar_matriz_adjacencia idxGerado nodesGerados cd.1.1 cd.1.2
        = (cd.2 : WithTop ℚ) ∧
      dijkstra_matriz_simples gerar_matriz_adjacencia idxGerado nodesGerados cd.1.1 cd.1.2
        = (cd.2 : WithTop ℚ) ∧
      dijkstra_matriz_heap gerar_matriz_adjacencia idxGerado nodesGerados cd.1.2 cd.1.1 = ⊤ ∧
      dijkstra_matriz_simples gerar_matriz_adjacencia idxGerado nodesGerados cd.1.2 cd.1.1 = ⊤ := by
    decide
  refine ⟨?_, by decide, by decide, by decide, by decide, by decide, by decide⟩
  intro cd hcd
  obtain ⟨hida, hvolta, hmh, hms, hrh, hrs⟩ := hdec cd hcd
  refine ⟨hida, hvolta, hmh, hms, hrh, hrs, ?_⟩
  have hreach : Reachable (Grafo.get gerar_lista_adjacencia) cd.1.1 cd.1.2 :=
    ⟨0 + cd.2, PathLen.snoc PathLen.nil hida⟩
  obtain ⟨r, e₁, s⟩ := (dijkstra_lista_heap_spec hnn cd.1.1 cd.1.2).1 hreach
  obtain ⟨r₂, e₂, s₂⟩ := (dijkstra_lista_simples_spec hnn cd.1.1 cd.1.2).1 hreach
  refine ⟨r, e₁, ?_, ?_⟩
  · rw [IsShortest.unico s₂ s] at e₂
    exact e₂
  · have hle : r ≤ 0 + cd.2 := s.2 (0 + cd.2) (PathLen.snoc PathLen.nil hida)
    rw [zero_add] at hle
    exact hle

/-- Witness for C3's amended universal part at the recorded pair
(São Paulo, Rio de Janeiro). -/
theorem C3_representacoes_witness :
    (("Rio de Janeiro", (450 : ℚ)) ∈ Grafo.get gerar_lista_adjacencia "São Paulo" ∧
    ("São Paulo", (450 : ℚ)) ∈ Grafo.get gerar_lista_adjacencia "Rio de Janeiro" ∧
    dijkstra_matriz_heap gerar_matriz_adjacencia idxGerado nodesGerados
      "São Paulo" "Rio de Janeiro" = ((450 : ℚ) : WithTop ℚ) ∧
    dijkstra_matriz_simples gerar_matriz_adjacencia idxGerado nodesGerados
      "São Paulo" "Rio de Janeiro" = ((450 : ℚ) : WithTop ℚ) ∧
    dijkstra_matriz_heap gerar_matriz_adjacencia idxGerado nodesGerados
      "Rio de Janeiro" "São Paulo" = ⊤ ∧
    dijkstra_matriz_simples gerar_matriz_adjacencia idxGerado nodesGerados
      "Rio de Janeiro" "São Paulo" = ⊤ ∧
    ∃ r : ℚ, dijkstra_lista_heap gerar_lista_adjacencia "São Paulo" "Rio de Janeiro"
        = (r : WithTop ℚ) ∧
      dijkstra_lista_simples gerar_lista_adjacencia "São Paulo" "Rio de Janeiro"
        = (r : WithTop ℚ) ∧ r ≤ 450) :=
  C3_representacoes.1 (("São Paulo", "Rio de Janeiro"), 450) (by decide)

/-- Sparse lookup commutes with scaling: the scaled graph has the same keys
and pointwise scaled weights. -/
lemma get_escalar : ∀ (g : Grafo) (k : ℚ) (v : String),
    Grafo.get (escalar_grafo g k) v = (Grafo.get g v).map fun q => (q.1, q.2 * k) := by
  intro g k v
  induction g with
  | nil => rfl
  | cons p resto ih =>
    show Grafo.get ((p.1, p.2.map fun q => (q.1, q.2 * k)) :: escalar_grafo resto k) v
      = (Grafo.get (p :: resto) v).map fun q => (q.1, q.2 * k)
    rw [Grafo.get, Grafo.get]
    by_cases hv : p.1 = v
    · rw [List.find?_cons_of_pos _ (by simpa using hv),
        List.find?_cons_of_pos _ (by simpa using hv)]
    · rw [List.find?_cons_of_neg _ (by simpa using hv),
        List.find?_cons_of_neg _ (by simpa using hv)]
      exact ih

/-- Scaling by a nonnegative factor preserves graph nonnegativity. -/
lemma nonneg_escalar_grafo {g : Grafo} {k : ℚ} (hg : NonnegGrafo g) (hk : 0 ≤ k) :
    NonnegGrafo (escalar_grafo g k) := by
  intro p hp q hq
  rw [escalar_grafo, List.mem_map] at hp
  obtain ⟨p₀, hp₀, hpe⟩ := hp
  rw [← hpe] at hq
  simp only [List.mem_map] at hq
  obtain ⟨q₀, hq₀, hqe⟩ := hq
  rw [← hqe]
  exact mul_nonneg (hg p₀ hp₀ q₀ hq₀) hk

/-- Forward path correspondence under scaling: every path of the scaled
neighbour function is a scaled path of the original one. -/
lemma pathLen_escala {adj adjS : String → List (String × ℚ)} {k : ℚ}
    (hadj : ∀ v, adjS v = (adj v).map fun q => (q.1, q.2 * k)) :
    ∀ {o v : String} {c : ℚ}, PathLen adjS o v c →
      ∃ c₀, PathLen adj o v c₀ ∧ c = c₀ * k := by
  intro o v c hp
  induction hp with
  | nil => exact ⟨0, PathLen.nil, (zero_mul k).symm⟩
  | @snoc u x c₁ w hp' he ih =>
    obtain ⟨c₀, hc₀, hce⟩ := ih
    rw [hadj u, List.mem_map] at he
    obtain ⟨q₀, hq₀, hqe⟩ := he
    have hx : q₀.1 = x := congrArg Prod.fst hqe
    have hw : q₀.2 * k = w := congrArg Prod.snd hqe
    refine ⟨c₀ + q₀.2, hx ▸ PathLen.snoc hc₀ (by simpa using hq₀), ?_⟩
    rw [hce, ← hw, add_mul]

/-- Backward path correspondence under scaling. -/
lemma pathLen_escala_inv {adj adjS : String → List (String × ℚ)} {k : ℚ}
    (hadj : ∀ v, adjS v = (adj v).map fun q => (q.1, q.2 * k)) :
    ∀ {o v : String} {c₀ : ℚ}, PathLen adj o v c₀ → PathLen adjS o v (c₀ * k) := by
  intro o v c₀ hp
  induction hp with
  | nil =>
    rw [zero_mul]
    exact PathLen.nil
  | @snoc u x c₁ w hp' he ih =>
    have hmem : (x, w * k) ∈ adjS u := by
      rw [hadj u, List.mem_map]
      exact ⟨(x, w), he, rfl⟩
    have := PathLen.snoc ih hmem
    rwa [← add_mul] at this

/-- Reachability is preserved by scaling, in both directions. -/
lemma reachable_escala {adj adjS : String → List (String × ℚ)} {k : ℚ}
    (hadj : ∀ v, adjS v = (adj v).map fun q => (q.1, q.2 * k)) (o d : String) :
    Reachable adjS o d ↔ Reachable adj o d := by
  constructor
  · rintro ⟨c, hc⟩
    obtain ⟨c₀, hc₀, _⟩ := pathLen_escala hadj hc
    exact ⟨c₀, hc₀⟩
  · rintro ⟨c₀, hc₀⟩
    exact ⟨c₀ * k, pathLen_escala_inv hadj hc₀⟩

/-- The shortest distance scales by a nonnegative factor. -/
lemma isShortest_escala {adj adjS : String → List (String × ℚ)} {k : ℚ}
    (hadj : ∀ v, adjS v = (adj v).map fun q => (q.1, q.2 * k)) (hk : 0 ≤ k)
    {o d : String} {r : ℚ} (hs : IsShortest adj o d r) :
    IsShortest adjS o d (r * k) := by
  refine ⟨pathLen_escala_inv hadj hs.1, ?_⟩
  intro c hc
  obtain ⟨c₀, hc₀, hce⟩ := pathLen_escala hadj hc
  rw [hce]
  exact mul_le_mul_of_nonneg_right (hs.2 c₀ hc₀) hk

/-- Dense row scan commutes with scaling, index by index. -/
lemma enumFrom_filterMap_escalar (nodes : List String) (k : ℚ) :
    ∀ (row : List (WithTop ℚ)) (n : ℕ),
      ((row.map fun d => if h : d = ⊤ then (⊤ : WithTop ℚ)
          else ((d.untop h * k : ℚ) : WithTop ℚ)).enumFrom n).filterMap
        (fun jp => if h : jp.2 = ⊤ then none else some (nodes.getD jp.1 "", jp.2.untop h))
      = (((row.enumFrom n).filterMap
          (fun jp => if h : jp.2 = ⊤ then none else some (nodes.getD jp.1 "", jp.2.untop h))).map
          fun q => (q.1, q.2 * k)) := by
  intro row
  induction row with
  | nil => intro n; rfl
  | cons c cs ih =>
    intro n
    rw [List.map_cons, List.enumFrom_cons, List.enumFrom_cons, List.filterMap_cons,
      List.filterMap_cons]
    by_cases hT : c = ⊤
    · subst hT
      rw [dif_pos rfl]
      have h1 : (if h : (⊤ : WithTop ℚ) = ⊤ then none
          else some (nodes.getD n "", (⊤ : WithTop ℚ).untop h)) = none := dif_pos rfl
      simp only [h1]
      exact ih (n + 1)
    · rw [dif_neg hT]
      have hC : ((c.untop hT * k : ℚ) : WithTop ℚ) ≠ ⊤ := WithTop.coe_ne_top
      have h1 : (if h : ((n, ((c.untop hT * k : ℚ) : WithTop ℚ)) : ℕ × WithTop ℚ).2 = ⊤
          then none
          else some (nodes.getD n "",
            (((n, ((c.untop hT * k : ℚ) : WithTop ℚ)) : ℕ × WithTop ℚ).2).untop h))
          = some (nodes.getD n "", c.untop hT * k) := by
        rw [dif_neg hC, WithTop.untop_coe]
      have h2 : (if h : ((n, c) : ℕ × WithTop ℚ).2 = ⊤ then none
          else some (nodes.getD n "", (((n, c) : ℕ × WithTop ℚ).2).untop h))
          = some (nodes.getD n "", c.untop hT) := dif_neg hT
      rw [h1, h2, List.map_cons]
      rw [ih (n + 1)]

/-- Row access in a scaled matrix. -/
lemma getD_escalar_matriz (matriz : Matriz) (k : ℚ) (i : ℕ) :
    (escalar_matriz matriz k).getD i []
      = (matriz.getD i []).map fun d => if h : d = ⊤ then (⊤ : WithTop ℚ)
          else ((d.untop h * k : ℚ) : WithTop ℚ) := by
  by_cases hi : i < matriz.length
  · have hi' : i < (escalar_matriz matriz k).length := by
      rw [escalar_matriz, List.length_map]
      exact hi
    rw [List.getD_eq_getElem _ _ hi', List.getD_eq_getElem _ _ hi]
    exact List.getElem_map _
  · have h1 : matriz.length ≤ i := le_of_not_lt hi
    have h2 : (escalar_matriz matriz k).length ≤ i := by
      rw [escalar_matriz, List.length_map]
      exact h1
    rw [List.getD_eq_default _ _ h2, List.getD_eq_default _ _ h1]
    rfl

/-- The dense neighbour function of a scaled matrix is the scaled dense
neighbour function. -/
lemma adjMatriz_escalar (matriz : Matriz) (idx : String → ℕ) (nodes : List String) (k : ℚ) :
    ∀ v, adjMatriz (escalar_matriz matriz k) idx nodes v
      = (adjMatriz matriz idx nodes v).map fun q => (q.1, q.2 * k) := by
  intro v
  rw [adjMatriz, adjMatriz, getD_escalar_matriz]
  exact enumFrom_filterMap_escalar nodes k (matriz.getD (idx v) []) 0

/-- Scaling by a nonnegative factor preserves matrix nonnegativity. -/
lemma nonneg_escalar_matriz {matriz : Matriz} {k : ℚ} (hm : NonnegMatriz matriz) (hk : 0 ≤ k) :
    NonnegMatriz (escalar_matriz matriz k) := by
  intro row hrow c hc
  rw [escalar_matriz, List.mem_map] at hrow
  obtain ⟨row₀, hrow₀, hre⟩ := hrow
  rw [← hre, List.mem_map] at hc
  obtain ⟨c₀, hc₀, hce⟩ := hc
  by_cases hT : c₀ = ⊤
  · rw [← hce, dif_pos hT]
    exact le_top
  · rw [← hce, dif_neg hT]
    have h0 : (0 : WithTop ℚ) ≤ c₀ := hm row₀ hrow₀ c₀ hc₀
    have h0' : (0 : ℚ) ≤ c₀.untop hT := by
      have := h0
      rw [← WithTop.coe_untop c₀ hT, ← WithTop.coe_zero, WithTop.coe_le_coe] at this
      exact this
    rw [← WithTop.coe_zero, WithTop.coe_le_coe]
    exact mul_nonneg h0' hk

/-- Combination step for the scaling claims: two runs whose results satisfy
the shortest-path specification over an original and a scaled neighbour
function are related by `WithTop.map (· * k)` when the factor is nonnegative. -/
lemma dijkstra_escala_aux {adj adjS : String → List (String × ℚ)} {k : ℚ}
    (hadj : ∀ v, adjS v = (adj v).map fun q => (q.1, q.2 * k)) (hk : 0 ≤ k)
    {o d : String} {x xS : WithTop ℚ}
    (hx : (Reachable adj o d → ∃ r : ℚ, x = (r : WithTop ℚ) ∧ IsShortest adj o d r) ∧
      (¬ Reachable adj o d → x = ⊤))
    (hxS : (Reachable adjS o d → ∃ r : ℚ, xS = (r : WithTop ℚ) ∧ IsShortest adjS o d r) ∧
      (¬ Reachable adjS o d → xS = ⊤)) :
    xS = x.map (· * k) := by
  by_cases hreach : Reachable adj o d
  · obtain ⟨r, e, s⟩ := hx.1 hreach
    obtain ⟨rS, eS, sS⟩ := hxS.1 ((reachable_escala hadj o d).mpr hreach)
    rw [e, eS, WithTop.map_coe, IsShortest.unico sS (isShortest_escala hadj hk s)]
  · rw [hx.2 hreach, hxS.2 (fun h => hreach ((reachable_escala hadj o d).mp h)),
      WithTop.map_top]

/-- C7 counterexample: scaling by a negative factor does not multiply results
by the factor. In `grafoExemplo` the shortest route a → dest costs 2, but on
the graph scaled by -1 the run returns -5 (the negated direct edge pops
first), not -1 times 2; the pair is reachable in the unscaled graph. -/
theorem C7_contraexemplo :
    Reachable (Grafo.get grafoExemplo) "a" "dest" ∧
    dijkstra_lista_heap grafoExemplo "a" "dest" = ((2 : ℚ) : WithTop ℚ) ∧
    dijkstra_lista_heap (escalar_grafo grafoExemplo (-1)) "a" "dest"
      = ((-5 : ℚ) : WithTop ℚ) ∧
    dijkstra_lista_heap (escalar_grafo grafoExemplo (-1)) "a" "dest"
      ≠ (((-1 : ℚ) * 2 : ℚ) : WithTop ℚ) := by
  have h1 : ("dest", (5 : ℚ)) ∈ Grafo.get grafoExemplo "a" := by decide
  exact ⟨⟨0 + 5, PathLen.snoc PathLen.nil h1⟩, by decide, by decide, by decide⟩

/-- C7 as amended: for every nonnegative factor `k`, scaling multiplies every
finite result of all four strategies by exactly `k` and keeps unreachable
pairs unreachable (`WithTop.map` sends `⊤` to `⊤` and `r` to `r * k`). Stated
under the specification's nonnegative-distance invariant. -/
theorem C7_escala :
    ∀ k : ℚ, 0 ≤ k → ∀ g : Grafo, NonnegGrafo g →
    ∀ (matriz : Matriz) (idx : String → ℕ) (nodes : List String), NonnegMatriz matriz →
    ∀ o d : String,
      dijkstra_lista_heap (escalar_grafo g k) o d
        = (dijkstra_lista_heap g o d).map (· * k) ∧
      dijkstra_lista_simples (escalar_grafo g k) o d
        = (dijkstra_lista_simples g o d).map (· * k) ∧
      dijkstra_matriz_heap (escalar_matriz matriz k) idx nodes o d
        = (dijkstra_matriz_heap matriz idx nodes o d).map (· * k) ∧
      dijkstra_matriz_simples (escalar_matriz matriz k) idx nodes o d
        = (dijkstra_matriz_simples matriz idx nodes o d).map (· * k) := by
  intro k hk g hg matriz idx nodes hm o d
  have hadjL := get_escalar g k
  have hadjM := adjMatriz_escalar matriz idx nodes k
  have hgS : NonnegGrafo (escalar_grafo g k) := nonneg_escalar_grafo hg hk
  have hmS : NonnegMatriz (escalar_matriz matriz k) := nonneg_escalar_matriz hm hk
  exact ⟨dijkstra_escala_aux hadjL hk (dijkstra_lista_heap_spec hg o d)
      (dijkstra_lista_heap_spec hgS o d),
    dijkstra_escala_aux hadjL hk (dijkstra_lista_simples_spec hg o d)
      (dijkstra_lista_simples_spec hgS o d),
    dijkstra_escala_aux hadjM hk (@dijkstra_matriz_heap_spec matriz idx nodes hm o d)
      (@dijkstra_matriz_heap_spec (escalar_matriz matriz k) idx nodes hmS o d),
    dijkstra_escala_aux hadjM hk (@dijkstra_matriz_simples_spec matriz idx nodes hm o d)
      (@dijkstra_matriz_simples_spec (escalar_matriz matriz k) idx nodes hmS o d)⟩

/-- Witness for the amended C7 at factor 2 on concrete inputs. -/
theorem C7_escala_witness :
    dijkstra_lista_heap (escalar_grafo grafoExemplo 2) "a" "dest"
      = (dijkstra_lista_heap grafoExemplo "a" "dest").map (· * 2) ∧
    dijkstra_matriz_heap (escalar_matriz matrizExemplo 2) idxExemplo nodesExemplo "a" "b"
      = (dijkstra_matriz_heap matrizExemplo idxExemplo nodesExemplo "a" "b").map (· * 2) :=
  ⟨(C7_escala 2 (by decide) grafoExemplo (by decide) matrizExemplo idxExemplo nodesExemplo
      (by decide) "a" "dest").1,
   (C7_escala 2 (by decide) grafoExemplo (by decide) matrizExemplo idxExemplo nodesExemplo
      (by decide) "a" "b").2.2.1⟩

/-- Cell access in a scaled matrix, with the out-of-range default treated as
an unreachable cell. -/
lemma getD_cell_escalar (matriz : Matriz) (k : ℚ) (i j : ℕ) :
    ((escalar_matriz matriz k).getD i []).getD j ⊤
      = (fun d => if h : d = ⊤ then (⊤ : WithTop ℚ) else ((d.untop h * k : ℚ) : WithTop ℚ))
          ((matriz.getD i []).getD j ⊤) := by
  rw [getD_escalar_matriz]
  by_cases hj : j < (matriz.getD i []).length
  · rw [List.getD_eq_getElem _ _ (by simpa using hj), List.getD_eq_getElem _ _ hj,
      List.getElem_map]
  · rw [List.getD_eq_default _ _ (by simpa using le_of_not_lt hj),
      List.getD_eq_default _ _ (le_of_not_lt hj)]
    simp

/-- C9: the scaling functions build fresh structures whose observable content
is fully determined by the input — same keys and row shape, every finite
weight multiplied by the factor, every unreachable matrix cell left
unreachable. In this embedding the inputs are immutable values, matching the
source's construction of new dict/list comprehensions without writes to the
arguments. -/
theorem C9_escalar_novo :
    ∀ (g : Grafo) (matriz : Matriz) (k : ℚ),
      (∀ v : String, Grafo.get (escalar_grafo g k) v
        = (Grafo.get g v).map fun q => (q.1, q.2 * k)) ∧
      (escalar_grafo g k).map Prod.fst = g.map Prod.fst ∧
      (escalar_matriz matriz k).length = matriz.length ∧
      (∀ i : ℕ, ((escalar_matriz matriz k).getD i []).length = (matriz.getD i []).length) ∧
      (∀ i j : ℕ, (matriz.getD i []).getD j ⊤ = ⊤ →
        ((escalar_matriz matriz k).getD i []).getD j ⊤ = ⊤) ∧
      (∀ (i j : ℕ) (w : ℚ), (matriz.getD i []).getD j ⊤ = (w : WithTop ℚ) →
        ((escalar_matriz matriz k).getD i []).getD j ⊤ = ((w * k : ℚ) : WithTop ℚ)) := by
  intro g matriz k
  refine ⟨get_escalar g k, ?_, ?_, ?_, ?_, ?_⟩
  · rw [escalar_grafo, List.map_map]
    rfl
  · rw [escalar_matriz, List.length_map]
  · intro i
    rw [getD_escalar_matriz, List.length_map]
  · intro i j hc
    rw [getD_cell_escalar, hc]
    exact dif_pos rfl
  · intro i j w hc
    rw [getD_cell_escalar, hc]
    show (if h : ((w : WithTop ℚ)) = ⊤ then (⊤ : WithTop ℚ)
      else (((w : WithTop ℚ).untop h * k : ℚ) : WithTop ℚ)) = ((w * k : ℚ) : WithTop ℚ)
    rw [dif_neg WithTop.coe_ne_top, WithTop.untop_coe]

/-- Witness for C9 at concrete inputs and factor 3. -/
theorem C9_escalar_novo_witness :
    (Grafo.get (escalar_grafo grafoExemplo 3) "a"
      = (Grafo.get grafoExemplo "a").map fun q => (q.1, q.2 * 3)) ∧
    ((escalar_matriz matrizExemplo 3).getD 0 []).getD 1 ⊤ = (((1 : ℚ) * 3 : ℚ) : WithTop ℚ) ∧
    ((escalar_matriz matrizExemplo 3).getD 0 []).getD 0 ⊤ = ⊤ :=
  ⟨(C9_escalar_novo grafoExemplo matrizExemplo 3).1 "a",
   (C9_escalar_novo grafoExemplo matrizExemplo 3).2.2.2.2.2 0 1 1 (by decide),
   (C9_escalar_novo grafoExemplo matrizExemplo 3).2.2.2.2.1 0 0 (by decide)⟩

/- ### The planner: characterisation of the `melhor` selection (C4) -/

/-- `melhor` starts at distance `inf`. -/
lemma melhorDist_none : melhorDist none = ⊤ := rfl

/-- `melhor` after an acceptance carries the accepted distance. -/
lemma melhorDist_some (i : ℕ) (c : String) (d : ℚ) :
    melhorDist (some (i, c, d)) = (d : WithTop ℚ) := rfl

/-- A truck step never changes the accumulator when the centre's distance does
not strictly improve on the current best. -/
lemma atualizaCaminhao_stay {entrega : Entrega} {d : ℚ} {centro : String}
    {acc : Option (ℕ × String × ℚ)} (icam : ℕ × Caminhao)
    (h : ¬ ((d : WithTop ℚ) < melhorDist acc)) :
    atualizaCaminhao entrega d centro acc icam = acc := by
  unfold atualizaCaminhao
  by_cases hv : entrega.peso ≤ icam.2.capacidade ∧ d / 50 ≤ icam.2.horas_disponiveis ∧
      d / 50 ≤ entrega.prazo
  · rw [if_pos hv, if_neg h]
  · rw [if_neg hv]

/-- A truck step never changes the accumulator on an infeasible truck. -/
lemma atualizaCaminhao_nao_viavel {entrega : Entrega} {d : ℚ} {centro : String}
    {acc : Option (ℕ × String × ℚ)} {icam : ℕ × Caminhao}
    (h : ¬ Viavel entrega icam.2 d) :
    atualizaCaminhao entrega d centro acc icam = acc := by
  unfold atualizaCaminhao
  exact if_neg h

/-- The truck fold keeps the accumulator when the distance does not improve. -/
lemma atualiza_fold_stay {entrega : Entrega} {d : ℚ} {centro : String} :
    ∀ (l : List (ℕ × Caminhao)) (acc : Option (ℕ × String × ℚ)),
      ¬ ((d : WithTop ℚ) < melhorDist acc) →
      l.foldl (atualizaCaminhao entrega d centro) acc = acc := by
  intro l
  induction l with
  | nil => intro acc _; rfl
  | cons p r ih =>
      intro acc h
      rw [List.foldl_cons, atualizaCaminhao_stay p h]
      exact ih acc h

/-- The truck fold keeps the accumulator when no truck of the list is
feasible for the delivery at the centre's distance. -/
lemma atualiza_fold_none {entrega : Entrega} {d : ℚ} {centro : String} :
    ∀ (l : List (ℕ × Caminhao)) (acc : Option (ℕ × String × ℚ)),
      (∀ icam ∈ l, ¬ Viavel entrega icam.2 d) →
      l.foldl (atualizaCaminhao entrega d centro) acc = acc := by
  intro l
  induction l with
  | nil => intro acc _; rfl
  | cons p r ih =>
      intro acc h
      rw [List.foldl_cons, atualizaCaminhao_nao_viavel (h p (List.mem_cons_self p r))]
      exact ih acc fun x hx => h x (List.mem_cons_of_mem p hx)

/-- When the centre's distance strictly improves and some truck is feasible,
the truck fold selects the first feasible truck of the list. -/
lemma atualiza_fold_update {entrega : Entrega} {d : ℚ} {centro : String} :
    ∀ (l : List (ℕ × Caminhao)) (acc : Option (ℕ × String × ℚ)),
      ((d : WithTop ℚ) < melhorDist acc) →
      (∃ icam₀ ∈ l, Viavel entrega icam₀.2 d) →
      ∃ l₁ icam l₂, l = l₁ ++ icam :: l₂ ∧ Viavel entrega icam.2 d ∧
        (∀ icam' ∈ l₁, ¬ Viavel entrega icam'.2 d) ∧
        l.foldl (atualizaCaminhao entrega d centro) acc = some (icam.1, centro, d) := by
  intro l
  induction l with
  | nil =>
      intro acc _ hex
      obtain ⟨x, hx, _⟩ := hex
      exact absurd hx (List.not_mem_nil x)
  | cons p r ih =>
      intro acc hlt hex
      by_cases hp : Viavel entrega p.2 d
      · refine ⟨[], p, r, rfl, hp, fun x hx => absurd hx (List.not_mem_nil x), ?_⟩
        rw [List.foldl_cons]
        have hp' : entrega.peso ≤ p.2.capacidade ∧ d / 50 ≤ p.2.horas_disponiveis ∧
            d / 50 ≤ entrega.prazo := hp
        have hstep : atualizaCaminhao entrega d centro acc p = some (p.1, centro, d) := by
          unfold atualizaCaminhao
          rw [if_pos hp', if_pos hlt]
        rw [hstep]
        exact atualiza_fold_stay r _ (by rw [melhorDist_some]; exact lt_irrefl _)
      · obtain ⟨x, hx, hvx⟩ := hex
        have hx' : x ∈ r := by
          rcases List.mem_cons.mp hx with h | h
          · exact absurd (h ▸ hvx) hp
          · exact h
        rw [List.foldl_cons, atualizaCaminhao_nao_viavel hp]
        obtain ⟨l₁, icam, l₂, hs, hvi, hn, hr⟩ := ih acc hlt ⟨x, hx', hvx⟩
        refine ⟨p :: l₁, icam, l₂, by rw [hs]; rfl, hvi, ?_, hr⟩
        intro y hy
        rcases List.mem_cons.mp hy with h | h
        · rw [h]; exact hp
        · exact hn y h

/-- An unreachable centre leaves the accumulator unchanged. -/
lemma examinaCentro_top {caminhoes : List Caminhao} {buscar : String → String → WithTop ℚ}
    {entrega : Entrega} {centro : String} (acc : Option (ℕ × String × ℚ))
    (h : buscar centro entrega.destino = ⊤) :
    examinaCentro caminhoes buscar entrega acc centro = acc := by
  unfold examinaCentro
  rw [h]

/-- A reachable centre hands the accumulator to the truck fold. -/
lemma examinaCentro_coe {caminhoes : List Caminhao} {buscar : String → String → WithTop ℚ}
    {entrega : Entrega} {centro : String} (acc : Option (ℕ × String × ℚ)) {d : ℚ}
    (h : buscar centro entrega.destino = (d : WithTop ℚ)) :
    examinaCentro caminhoes buscar entrega acc centro
      = caminhoes.enum.foldl (atualizaCaminhao entrega d centro) acc := by
  unfold examinaCentro
  rw [h]

/-- Decomposing an enumeration around a distinguished element recovers a
decomposition of the underlying list, with the stored index equal to the
element's position. -/
lemma enumFrom_split : ∀ (l : List Caminhao) (n : ℕ) (l₁ : List (ℕ × Caminhao))
    (icam : ℕ × Caminhao) (l₂ : List (ℕ × Caminhao)),
    List.enumFrom n l = l₁ ++ icam :: l₂ →
    ∃ k₁ k₂, l = k₁ ++ icam.2 :: k₂ ∧ icam.1 = n + k₁.length ∧ l₁ = List.enumFrom n k₁ := by
  intro l
  induction l with
  | nil =>
      intro n l₁ icam l₂ h
      have hmem : icam ∈ List.enumFrom n ([] : List Caminhao) := by
        rw [h]; exact List.mem_append_right l₁ (List.mem_cons_self icam l₂)
      simp [List.enumFrom] at hmem
  | cons c r ih =>
      intro n l₁ icam l₂ h
      simp only [List.enumFrom] at h
      cases l₁ with
      | nil =>
          simp only [List.nil_append] at h
          obtain ⟨h1, h2⟩ := List.cons.inj h
          exact ⟨[], r, by rw [← h1]; rfl, by rw [← h1]; simp, rfl⟩
      | cons q l₁' =>
          simp only [List.cons_append] at h
          obtain ⟨h1, h2⟩ := List.cons.inj h
          obtain ⟨k₁, k₂, hl, hi, hl₁⟩ := ih (n + 1) l₁' icam l₂ h2
          refine ⟨c :: k₁, k₂, by rw [hl]; rfl, ?_, ?_⟩
          · rw [hi]
            simp only [List.length_cons]
            omega
          · simp only [List.enumFrom]
            rw [← h1, hl₁]

/-- Every list element appears in the enumeration with some index. -/
lemma exists_mem_enumFrom : ∀ (l : List Caminhao) (n : ℕ) {cam : Caminhao},
    cam ∈ l → ∃ j, (j, cam) ∈ List.enumFrom n l := by
  intro l
  induction l with
  | nil => intro n cam h; exact absurd h (List.not_mem_nil cam)
  | cons c r ih =>
      intro n cam h
      simp only [List.enumFrom]
      rcases List.mem_cons.mp h with h | h
      · exact ⟨n, by rw [h]; exact List.mem_cons_self _ _⟩
      · obtain ⟨j, hj⟩ := ih (n + 1) h
        exact ⟨j, List.mem_cons_of_mem _ hj⟩

/-- The second component of an enumeration entry belongs to the list. -/
lemma mem_of_mem_enumFrom : ∀ (l : List Caminhao) (n : ℕ) (icam : ℕ × Caminhao),
    icam ∈ List.enumFrom n l → icam.2 ∈ l := by
  intro l
  induction l with
  | nil =>
      intro n icam h
      simp [List.enumFrom] at h
  | cons c r ih =>
      intro n icam h
      simp only [List.enumFrom] at h
      rcases List.mem_cons.mp h with h | h
      · rw [h]; exact List.mem_cons_self _ _
      · exact List.mem_cons_of_mem _ (ih (n + 1) icam h)

/-- Combination distances at a centre are determined by the oracle. -/
lemma comboViavel_buscar {caminhoes : List Caminhao} {buscar : String → String → WithTop ℚ}
    {entrega : Entrega} {c : String} {d d₀ : ℚ}
    (h : ComboViavel caminhoes buscar entrega c d)
    (hb : buscar c entrega.destino = (d₀ : WithTop ℚ)) : d = d₀ := by
  have hdd : ((d : WithTop ℚ)) = (d₀ : WithTop ℚ) := h.1.symm.trans hb
  exact_mod_cast hdd

/-- No feasible combination exists at an unreachable centre. -/
lemma comboViavel_ne_top {caminhoes : List Caminhao} {buscar : String → String → WithTop ℚ}
    {entrega : Entrega} {c : String} {d : ℚ}
    (h : ComboViavel caminhoes buscar entrega c d) :
    buscar c entrega.destino ≠ ⊤ := by
  rw [h.1]
  exact WithTop.coe_ne_top

/-- One outer-loop step preserves the selection postcondition, extending the
processed centre list by the examined centre. -/
lemma accok_step (caminhoes : List Caminhao) (buscar : String → String → WithTop ℚ)
    (entrega : Entrega) (done : List String) (acc : Option (ℕ × String × ℚ)) (centro : String)
    (hok : SelecaoOk caminhoes done buscar entrega acc) :
    SelecaoOk caminhoes (done ++ [centro]) buscar entrega
      (examinaCentro caminhoes buscar entrega acc centro) := by
  by_cases htop : buscar centro entrega.destino = ⊤
  · rw [examinaCentro_top acc htop]
    have hnc : ∀ d : ℚ, ¬ ComboViavel caminhoes buscar entrega centro d := by
      intro d hcv
      exact comboViavel_ne_top hcv htop
    rcases hok with ⟨hnone, hall⟩ | ⟨i, c, d, hacc, ⟨p₁, p₂, hdec, hcv, hantes, hdepois⟩, htr⟩
    · refine Or.inl ⟨hnone, ?_⟩
      intro c hc d
      rcases List.mem_append.mp hc with hc | hc
      · exact hall c hc d
      · rw [List.mem_singleton.mp hc]
        exact hnc d
    · refine Or.inr ⟨i, c, d, hacc, ⟨p₁, p₂ ++ [centro], by rw [hdec]; simp, hcv, hantes, ?_⟩, htr⟩
      intro c' hc' d' hcv'
      rcases List.mem_append.mp hc' with hc' | hc'
      · exact hdepois c' hc' d' hcv'
      · rw [List.mem_singleton.mp hc'] at hcv'
        exact absurd hcv' (hnc d')
  · obtain ⟨d₀, hd₀⟩ := WithTop.ne_top_iff_exists.mp htop
    have hcoe : buscar centro entrega.destino = (d₀ : WithTop ℚ) := hd₀.symm
    rw [examinaCentro_coe acc hcoe]
    by_cases hex : ∃ cam ∈ caminhoes, Viavel entrega cam d₀
    · by_cases hlt : (d₀ : WithTop ℚ) < melhorDist acc
      · have hex' : ∃ icam₀ ∈ caminhoes.enum, Viavel entrega icam₀.2 d₀ := by
          obtain ⟨cam, hmem, hv⟩ := hex
          obtain ⟨j, hj⟩ := exists_mem_enumFrom caminhoes 0 hmem
          exact ⟨(j, cam), hj, hv⟩
        obtain ⟨l₁, icam, l₂, hsplit, hvi, hning, hres⟩ :=
          atualiza_fold_update caminhoes.enum acc hlt hex'
        obtain ⟨k₁, k₂, hks, hidx, hl₁⟩ := enumFrom_split caminhoes 0 l₁ icam l₂ hsplit
        rw [hres]
        refine Or.inr ⟨icam.1, centro, d₀, rfl, ⟨done, [], rfl, ⟨hcoe, hex⟩, ?_, ?_⟩, ?_⟩
        · intro c' hc' d' hcv'
          rcases hok with ⟨_, hall⟩ | ⟨i, c, d, hacc, ⟨p₁, p₂, hdec, hcv, hantes, hdepois⟩, _⟩
          · exact absurd hcv' (hall c' hc' d')
          · have hd : melhorDist acc = (d : WithTop ℚ) := by rw [hacc]; rfl
            have hd₀d : d₀ < d := by
              rw [hd] at hlt
              exact_mod_cast hlt
            rw [hdec] at hc'
            rcases List.mem_append.mp hc' with hc' | hc'
            · exact lt_trans hd₀d (hantes c' hc' d' hcv')
            · rcases List.mem_cons.mp hc' with hc' | hc'
              · rw [hc'] at hcv'
                have hde : d' = d := comboViavel_buscar hcv' hcv.1
                rw [hde]
                exact hd₀d
              · exact lt_of_lt_of_le hd₀d (hdepois c' hc' d' hcv')
        · intro c' hc' d' _
          exact absurd hc' (List.not_mem_nil c')
        · refine ⟨k₁, icam.2, k₂, hks, by rw [hidx]; exact Nat.zero_add _, hvi, ?_⟩
          intro cam' hmem' hv'
          obtain ⟨j, hj⟩ := exists_mem_enumFrom k₁ 0 hmem'
          rw [← hl₁] at hj
          exact hning (j, cam') hj hv'
      · rw [atualiza_fold_stay caminhoes.enum acc hlt]
        rcases hok with ⟨hnone, _⟩ | ⟨i, c, d, hacc, ⟨p₁, p₂, hdec, hcv, hantes, hdepois⟩, htr⟩
        · exfalso
          rw [hnone] at hlt
          exact hlt (by rw [melhorDist_none]; exact WithTop.coe_lt_top d₀)
        · have hd : melhorDist acc = (d : WithTop ℚ) := by rw [hacc]; rfl
          have hdd₀ : d ≤ d₀ := by
            rw [hd] at hlt
            exact_mod_cast not_lt.mp hlt
          refine Or.inr
            ⟨i, c, d, hacc, ⟨p₁, p₂ ++ [centro], by rw [hdec]; simp, hcv, hantes, ?_⟩, htr⟩
          intro c' hc' d' hcv'
          rcases List.mem_append.mp hc' with hc' | hc'
          · exact hdepois c' hc' d' hcv'
          · rw [List.mem_singleton.mp hc'] at hcv'
            have hde : d' = d₀ := comboViavel_buscar hcv' hcoe
            rw [hde]
            exact hdd₀
    · have hall : ∀ icam ∈ caminhoes.enum, ¬ Viavel entrega icam.2 d₀ := by
        intro icam hicam hv
        exact hex ⟨icam.2, mem_of_mem_enumFrom caminhoes 0 icam hicam, hv⟩
      rw [atualiza_fold_none caminhoes.enum acc hall]
      have hnc : ∀ d : ℚ, ¬ ComboViavel caminhoes buscar entrega centro d := by
        intro d hcv
        obtain ⟨hb', hex'⟩ := hcv
        have hde : d = d₀ := by
          have hdd : ((d : WithTop ℚ)) = (d₀ : WithTop ℚ) := hb'.symm.trans hcoe
          exact_mod_cast hdd
        rw [hde] at hex'
        exact hex hex'
      rcases hok with ⟨hnone, hall'⟩ | ⟨i, c, d, hacc, ⟨p₁, p₂, hdec, hcv, hantes, hdepois⟩, htr⟩
      · refine Or.inl ⟨hnone, ?_⟩
        intro c hc d
        rcases List.mem_append.mp hc with hc | hc
        · exact hall' c hc d
        · rw [List.mem_singleton.mp hc]
          exact hnc d
      · refine Or.inr
          ⟨i, c, d, hacc, ⟨p₁, p₂ ++ [centro], by rw [hdec]; simp, hcv, hantes, ?_⟩, htr⟩
        intro c' hc' d' hcv'
        rcases List.mem_append.mp hc' with hc' | hc'
        · exact hdepois c' hc' d' hcv'
        · rw [List.mem_singleton.mp hc'] at hcv'
          exact absurd hcv' (hnc d')

/-- The centre fold preserves the selection postcondition. -/
lemma selecionar_fold (caminhoes : List Caminhao) (buscar : String → String → WithTop ℚ)
    (entrega : Entrega) :
    ∀ (resto done : List String) (acc : Option (ℕ × String × ℚ)),
      SelecaoOk caminhoes done buscar entrega acc →
      SelecaoOk caminhoes (done ++ resto) buscar entrega
        (resto.foldl (examinaCentro caminhoes buscar entrega) acc) := by
  intro resto
  induction resto with
  | nil =>
      intro done acc h
      simpa using h
  | cons c r ih =>
      intro done acc h
      have h1 := accok_step caminhoes buscar entrega done acc c h
      have h2 := ih (done ++ [c]) _ h1
      rw [List.append_assoc] at h2
      exact h2

/-- The full `melhor` selection satisfies its postcondition. -/
lemma selecionarMelhor_spec (caminhoes : List Caminhao) (centros : List String)
    (buscar : String → String → WithTop ℚ) (entrega : Entrega) :
    SelecaoOk caminhoes centros buscar entrega
      (selecionarMelhor caminhoes centros buscar entrega) := by
  have h0 : SelecaoOk caminhoes [] buscar entrega none :=
    Or.inl ⟨rfl, fun c hc _ => absurd hc (List.not_mem_nil c)⟩
  have h1 := selecionar_fold caminhoes buscar entrega centros [] none h0
  simpa [selecionarMelhor] using h1

/-- `prazoLe` is transitive. -/
lemma prazoLe_trans (a b c : Entrega) (hab : prazoLe a b = true) (hbc : prazoLe b c = true) :
    prazoLe a c = true := by
  simp only [prazoLe, decide_eq_true_eq] at *
  exact le_trans hab hbc

/-- `prazoLe` is total. -/
lemma prazoLe_total (a b : Entrega) : (prazoLe a b || prazoLe b a) = true := by
  simp only [prazoLe, Bool.or_eq_true, decide_eq_true_eq]
  exact le_total a.prazo b.prazo

/-- Stability of the deadline sort: for every deadline value the subsequence
of deliveries carrying it is kept in input order. -/
lemma filter_mergeSort_prazo (entregas : List Entrega) (q : ℚ) :
    (entregas.mergeSort prazoLe).filter (fun e => decide (e.prazo = q))
      = entregas.filter (fun e => decide (e.prazo = q)) := by
  have hpair : List.Pairwise (fun a b => prazoLe a b = true)
      (entregas.filter fun e => decide (e.prazo = q)) := by
    apply List.pairwise_of_forall_mem_list
    intro a ha b hb
    have ha' := (List.mem_filter.mp ha).2
    have hb' := (List.mem_filter.mp hb).2
    simp only [decide_eq_true_eq] at ha' hb'
    simp only [prazoLe, decide_eq_true_eq]
    rw [ha', hb']
  have hsub : (entregas.filter fun e => decide (e.prazo = q)).Sublist
      (entregas.mergeSort prazoLe) :=
    List.mergeSort_stable prazoLe_trans prazoLe_total hpair (List.filter_sublist entregas)
  have hsub2 : ((entregas.filter fun e => decide (e.prazo = q)).filter
      fun e => decide (e.prazo = q)).Sublist
      ((entregas.mergeSort prazoLe).filter fun e => decide (e.prazo = q)) :=
    List.Sublist.filter _ hsub
  have heq : (entregas.filter fun e => decide (e.prazo = q)).filter
      (fun e => decide (e.prazo = q)) = entregas.filter fun e => decide (e.prazo = q) :=
    List.filter_eq_self.mpr fun a ha => (List.mem_filter.mp ha).2
  rw [heq] at hsub2
  have hperm : ((entregas.mergeSort prazoLe).filter fun e => decide (e.prazo = q)).Perm
      (entregas.filter fun e => decide (e.prazo = q)) :=
    List.Perm.filter _ (List.mergeSort_perm entregas prazoLe)
  exact (List.Sublist.eq_of_length hsub2 hperm.length_eq.symm).symm

/-- C4: `planejar_rotas` processes the deliveries in ascending deadline order,
obtained by a stable sort (ties keep input relative order, witnessed by the
preservation of every equal-deadline subsequence), and for each delivery the
`melhor` selection accepts a (truck, centre) combination only if the truck's
remaining capacity covers the weight, its remaining hours cover the travel
time `dist / 50`, and the travel time meets the deadline; among accepted
combinations it keeps one of strictly smallest distance, the first found
winning exact ties under the centres-outer, trucks-inner iteration order. -/
theorem C4_planejamento (entregas : List Entrega) (caminhoes : List Caminhao)
    (centros : List String) (buscar : String → String → WithTop ℚ) :
    (planejar_rotas entregas caminhoes centros buscar
      = (entregas.mergeSort prazoLe).foldl (alocar centros buscar)
          (estadoInicial caminhoes)) ∧
    (entregas.mergeSort prazoLe).Perm entregas ∧
    List.Pairwise (fun a b : Entrega => a.prazo ≤ b.prazo) (entregas.mergeSort prazoLe) ∧
    (∀ q : ℚ, (entregas.mergeSort prazoLe).filter (fun e => decide (e.prazo = q))
      = entregas.filter (fun e => decide (e.prazo = q))) ∧
    ∀ (cs : List Caminhao) (e : Entrega),
      SelecaoOk cs centros buscar e (selecionarMelhor cs centros buscar e) := by
  refine ⟨rfl, List.mergeSort_perm entregas prazoLe, ?_, ?_, ?_⟩
  · have hs := List.sorted_mergeSort prazoLe_trans prazoLe_total entregas
    refine List.Pairwise.imp ?_ hs
    intro a b h
    simpa [prazoLe, decide_eq_true_eq] using h
  · exact filter_mergeSort_prazo entregas
  · intro cs e
    exact selecionarMelhor_spec cs centros buscar e

/- ### The planner: accounting and partition invariants (C5, C6) -/

/-- Setting a position to the value it already holds is the identity. -/
lemma set_mesmo {α : Type} : ∀ (l : List α) (i : ℕ) (a : α), l[i]? = some a → l.set i a = l := by
  intro l
  induction l with
  | nil => intro i a h; simp at h
  | cons x r ih =>
      intro i a h
      cases i with
      | zero =>
          rw [List.getElem?_cons_zero] at h
          rw [List.set_cons_zero, Option.some.inj h]
      | succ j =>
          rw [List.getElem?_cons_succ] at h
          rw [List.set_cons_succ, ih j a h]

/-- `getD` at the position just set. -/
lemma getD_set_self {α : Type} : ∀ (l : List α) (k : ℕ) (a d : α), k < l.length →
    (l.set k a).getD k d = a := by
  intro l
  induction l with
  | nil => intro k a d h; simp at h
  | cons x r ih =>
      intro k a d h
      cases k with
      | zero => rw [List.set_cons_zero, List.getD_cons_zero]
      | succ j =>
          rw [List.set_cons_succ, List.getD_cons_succ]
          exact ih j a d (by simpa using h)

/-- `getD` away from the position just set. -/
lemma getD_set_ne {α : Type} (l : List α) (k j : ℕ) (a d : α) (h : j ≠ k) :
    (l.set k a).getD j d = l.getD j d := by
  rw [List.getD_eq_getElem?_getD, List.getElem?_set_ne (Ne.symm h),
    ← List.getD_eq_getElem?_getD]

/-- Appending matching elements preserves a pointwise relation. -/
lemma forall2_anexa {R : (String × String × ℚ) → Entrega → Prop}
    {l₁ : List (String × String × ℚ)} {l₂ : List Entrega}
    (h : List.Forall₂ R l₁ l₂) {a : String × String × ℚ} {b : Entrega} (hab : R a b) :
    List.Forall₂ R (l₁ ++ [a]) (l₂ ++ [b]) := by
  induction h with
  | nil => exact List.Forall₂.cons hab List.Forall₂.nil
  | cons h₁ _ ih => exact List.Forall₂.cons h₁ ih

/-- Extending one block of a partition by one element is, up to permutation,
appending that element to the flattening. -/
lemma flatten_set_perm {α : Type} : ∀ (A : List (List α)) (i : ℕ) (e : α), i < A.length →
    (A.set i (A.getD i [] ++ [e])).flatten.Perm (A.flatten ++ [e]) := by
  intro A
  induction A with
  | nil => intro i e h; simp at h
  | cons b rest ih =>
      intro i e h
      cases i with
      | zero =>
          rw [List.getD_cons_zero, List.set_cons_zero]
          simp only [List.flatten_cons]
          rw [List.append_assoc, List.append_assoc]
          exact List.Perm.append_left b List.perm_append_comm
      | succ j =>
          rw [List.getD_cons_succ, List.set_cons_succ]
          simp only [List.flatten_cons]
          rw [List.append_assoc]
          exact List.Perm.append_left b (ih j e (by simpa using h))

/-- `rotas[cid].append(leg)` does not change the key column. -/
lemma appendLeg_map_fst : ∀ (rotas : List (ℕ × List (String × String × ℚ))) (cid : ℕ)
    (leg : String × String × ℚ),
    (appendLeg rotas cid leg).map Prod.fst = rotas.map Prod.fst := by
  intro rotas cid leg
  induction rotas with
  | nil => rfl
  | cons p resto ih =>
      simp only [appendLeg]
      by_cases hp : p.1 = cid
      · rw [if_pos hp]
        simp
      · rw [if_neg hp]
        simp only [List.map_cons, ih]

/-- When exactly one position holds the key, `rotas[cid].append(leg)` is a
positional update of that entry. -/
lemma appendLeg_eq : ∀ (rotas : List (ℕ × List (String × String × ℚ))) (cid : ℕ)
    (leg : String × String × ℚ) (i : ℕ), i < rotas.length →
    (rotas.getD i (0, [])).1 = cid →
    (∀ j, j < rotas.length → j ≠ i → (rotas.getD j (0, [])).1 ≠ cid) →
    appendLeg rotas cid leg
      = rotas.set i ((rotas.getD i (0, [])).1, (rotas.getD i (0, [])).2 ++ [leg]) := by
  intro rotas
  induction rotas with
  | nil => intro cid leg i h; simp at h
  | cons p resto ih =>
      intro cid leg i hi hcid hallj
      cases i with
      | zero =>
          rw [List.getD_cons_zero] at hcid ⊢
          rw [List.set_cons_zero]
          simp only [appendLeg]
          rw [if_pos hcid, hcid]
      | succ j =>
          have hj : j < resto.length := by simpa using hi
          have hp : p.1 ≠ cid := by
            have h0 := hallj 0 (by simp) (by simp)
            rw [List.getD_cons_zero] at h0
            exact h0
          rw [List.getD_cons_succ] at hcid ⊢
          rw [List.set_cons_succ]
          simp only [appendLeg]
          rw [if_neg hp]
          congr 1
          refine ih cid leg j hj hcid ?_
          intro j' hj' hj'i
          have h1 := hallj (j' + 1) (by simpa using hj') (by omega)
          rw [List.getD_cons_succ] at h1
          exact h1

/-- Distinct positions of a truck list with pairwise distinct ids carry
distinct ids. -/
lemma ids_distintos {cs0 : List Caminhao} (hnd : (cs0.map Caminhao.id).Nodup)
    {i j : ℕ} (hi : i < cs0.length) (hj : j < cs0.length) (hne : j ≠ i) :
    (caminhaoEm cs0 j).id ≠ (caminhaoEm cs0 i).id := by
  intro heq
  have hi' : i < (cs0.map Caminhao.id).length := by simpa using hi
  have hj' : j < (cs0.map Caminhao.id).length := by simpa using hj
  have hgj : (cs0.map Caminhao.id)[j] = (caminhaoEm cs0 j).id := by
    rw [List.getElem_map]
    unfold caminhaoEm
    rw [List.getD_eq_getElem _ _ hj]
  have hgi : (cs0.map Caminhao.id)[i] = (caminhaoEm cs0 i).id := by
    rw [List.getElem_map]
    unfold caminhaoEm
    rw [List.getD_eq_getElem _ _ hi]
  have hgg : (cs0.map Caminhao.id)[j] = (cs0.map Caminhao.id)[i] := by
    rw [hgj, hgi, heq]
  exact hne ((List.Nodup.getElem_inj_iff hnd).mp hgg)

/-- A successful selection points at a feasible truck of the list. -/
lemma selecionarMelhor_some {caminhoes : List Caminhao} {centros : List String}
    {buscar : String → String → WithTop ℚ} {entrega : Entrega} {i : ℕ} {c : String} {d : ℚ}
    (h : selecionarMelhor caminhoes centros buscar entrega = some (i, c, d)) :
    ∃ cam, caminhoes[i]? = some cam ∧ Viavel entrega cam d := by
  rcases selecionarMelhor_spec caminhoes centros buscar entrega with ⟨hnone, _⟩ |
    ⟨i', c', d', hacc, _, ⟨k₁, cam, k₂, hks, hi', hv, _⟩⟩
  · rw [h] at hnone
    exact absurd hnone (by simp)
  · rw [h] at hacc
    have hinj := Option.some.inj hacc
    have hii : i = i' := congrArg Prod.fst hinj
    have hdd : d = d' := congrArg (fun t => t.2.2) hinj
    refine ⟨cam, ?_, ?_⟩
    · rw [hii, hi', hks]
      rw [List.getElem?_append_right (le_refl k₁.length)]
      simp
    · rw [hdd]
      exact hv

/-- One allocation step preserves the accounting invariant. -/
lemma planInv_alocar {cs0 : List Caminhao} {feitas : List Entrega} {st : Estado}
    (centros : List String) (buscar : String → String → WithTop ℚ) (entrega : Entrega)
    (hnd : (cs0.map Caminhao.id).Nodup) (hinv : PlanInv cs0 feitas st) :
    PlanInv cs0 (feitas ++ [entrega]) (alocar centros buscar st entrega) := by
  obtain ⟨hids, hkeys, A, hlen, hperm, hpt⟩ := hinv
  have hclen : st.caminhoes.length = cs0.length := by
    have h1 := congrArg List.length hids
    simpa using h1
  have hrlen : st.rotas.length = cs0.length := by
    have h1 := congrArg List.length hkeys
    simpa using h1
  unfold alocar
  cases hsel : selecionarMelhor st.caminhoes centros buscar entrega with
  | none =>
      refine ⟨hids, hkeys, A, hlen, ?_, fun i hi => hpt i hi⟩
      have h1 : (feitas ++ [entrega]).Perm ((A.flatten ++ st.nao_alocadas) ++ [entrega]) :=
        List.Perm.append_right [entrega] hperm
      rw [List.append_assoc] at h1
      exact h1
  | some t =>
      obtain ⟨i, centro, dist⟩ := t
      obtain ⟨cam, hcam, hviavel⟩ := selecionarMelhor_some hsel
      dsimp only
      rw [hcam]
      dsimp only
      obtain ⟨cam', hcamdef⟩ : ∃ x : Caminhao,
          x = Caminhao.mk cam.id (cam.capacidade - entrega.peso)
                (cam.horas_disponiveis - dist / 50) := ⟨_, rfl⟩
      rw [← hcamdef]
      obtain ⟨hi_lt, hcam_eq⟩ := List.getElem?_eq_some.mp hcam
      have hi0 : i < cs0.length := hclen ▸ hi_lt
      have hiA : i < A.length := by rw [hlen]; exact hi0
      have hiR : i < st.rotas.length := by rw [hrlen]; exact hi0
      have hcamEm : caminhaoEm st.caminhoes i = cam := by
        unfold caminhaoEm
        rw [List.getD_eq_getElem _ _ hi_lt, hcam_eq]
      have hid_i : cam.id = (caminhaoEm cs0 i).id := by
        have h1 := (hpt i hi0).1
        rw [hcamEm] at h1
        exact h1
      have hrot_key : ∀ j, j < cs0.length →
          (st.rotas.getD j (0, [])).1 = (caminhaoEm cs0 j).id := by
        intro j hj
        have hj_r : j < st.rotas.length := by rw [hrlen]; exact hj
        have h1 : (st.rotas.map Prod.fst)[j]? = (cs0.map Caminhao.id)[j]? := by rw [hkeys]
        rw [List.getElem?_map, List.getElem?_map, List.getElem?_eq_getElem hj_r,
          List.getElem?_eq_getElem hj] at h1
        simp only [Option.map] at h1
        have h2 := Option.some.inj h1
        rw [List.getD_eq_getElem _ _ hj_r, h2]
        unfold caminhaoEm
        rw [List.getD_eq_getElem _ _ hj]
      have hrot_i : (st.rotas.getD i (0, [])).1 = cam.id := by
        rw [hrot_key i hi0, hid_i]
      have hrot_unique : ∀ j, j < st.rotas.length → j ≠ i →
          (st.rotas.getD j (0, [])).1 ≠ cam.id := by
        intro j hj hji
        have hj0 : j < cs0.length := by rw [← hrlen]; exact hj
        rw [hrot_key j hj0, hid_i]
        exact ids_distintos hnd hi0 hj0 hji
      have happend := appendLeg_eq st.rotas cam.id (centro, entrega.destino, dist)
        i hiR hrot_i hrot_unique
      refine ⟨?_, ?_, A.set i (entregasEm A i ++ [entrega]), ?_, ?_, ?_⟩
      · show (st.caminhoes.set i cam').map Caminhao.id = cs0.map Caminhao.id
        rw [List.map_set]
        have hsome : (st.caminhoes.map Caminhao.id)[i]? = some cam.id := by
          rw [List.getElem?_map, hcam]
          rfl
        have hcid : Caminhao.id cam' = cam.id := by rw [hcamdef]
        rw [hcid, set_mesmo _ _ _ hsome, hids]
      · show (appendLeg st.rotas cam.id (centro, entrega.destino, dist)).map Prod.fst
          = cs0.map Caminhao.id
        rw [appendLeg_map_fst, hkeys]
      · rw [List.length_set]
        exact hlen
      · show (feitas ++ [entrega]).Perm
          ((A.set i (entregasEm A i ++ [entrega])).flatten ++ st.nao_alocadas)
        have h1 : (feitas ++ [entrega]).Perm ((A.flatten ++ st.nao_alocadas) ++ [entrega]) :=
          List.Perm.append_right [entrega] hperm
        have h2 : ((A.flatten ++ st.nao_alocadas) ++ [entrega]).Perm
            ((A.flatten ++ [entrega]) ++ st.nao_alocadas) := by
          rw [List.append_assoc, List.append_assoc]
          exact List.Perm.append_left A.flatten List.perm_append_comm
        have h3 := flatten_set_perm A i entrega hiA
        exact h1.trans (h2.trans (List.Perm.append_right st.nao_alocadas h3.symm))
      · intro j hj
        by_cases hji : j = i
        · subst hji
          have hCj : caminhaoEm (st.caminhoes.set j cam') j = cam' := by
            unfold caminhaoEm
            exact getD_set_self st.caminhoes j cam' _ hi_lt
          have hAj : entregasEm (A.set j (entregasEm A j ++ [entrega])) j
              = entregasEm A j ++ [entrega] := by
            unfold entregasEm
            exact getD_set_self A j _ _ hiA
          have hRj : legsEm (appendLeg st.rotas cam.id (centro, entrega.destino, dist)) j
              = legsEm st.rotas j ++ [(centro, entrega.destino, dist)] := by
            rw [happend]
            unfold legsEm
            rw [getD_set_self st.rotas j _ _ hiR]
          obtain ⟨hid, hcap, hhoras, hf2⟩ := hpt j hj
          rw [hcamEm] at hid hcap hhoras
          have comp1 : (caminhaoEm (st.caminhoes.set j cam') j).id = (caminhaoEm cs0 j).id := by
            rw [hCj, hcamdef]
            exact hid
          have comp2 : (caminhaoEm (st.caminhoes.set j cam') j).capacidade
              = (caminhaoEm cs0 j).capacidade
                  - ((entregasEm (A.set j (entregasEm A j ++ [entrega])) j).map
                      Entrega.peso).sum := by
            rw [hCj, hAj, hcamdef]
            show cam.capacidade - entrega.peso
              = (caminhaoEm cs0 j).capacidade
                  - ((entregasEm A j ++ [entrega]).map Entrega.peso).sum
            rw [List.map_append, List.sum_append, hcap]
            simp only [List.map_cons, List.map_nil, List.sum_cons, List.sum_nil]
            ring
          have comp3 : (caminhaoEm (st.caminhoes.set j cam') j).horas_disponiveis
              = (caminhaoEm cs0 j).horas_disponiveis
                  - ((legsEm (appendLeg st.rotas cam.id (centro, entrega.destino, dist)) j).map
                      fun leg => leg.2.2 / 50).sum := by
            rw [hCj, hRj, hcamdef]
            show cam.horas_disponiveis - dist / 50
              = (caminhaoEm cs0 j).horas_disponiveis
                  - ((legsEm st.rotas j ++ [(centro, entrega.destino, dist)]).map
                      fun leg => leg.2.2 / 50).sum
            rw [List.map_append, List.sum_append, hhoras]
            simp only [List.map_cons, List.map_nil, List.sum_cons, List.sum_nil]
            ring
          have comp4 : List.Forall₂
              (fun (leg : String × String × ℚ) (e : Entrega) => leg.2.1 = e.destino)
              (legsEm (appendLeg st.rotas cam.id (centro, entrega.destino, dist)) j)
              (entregasEm (A.set j (entregasEm A j ++ [entrega])) j) := by
            rw [hRj, hAj]
            exact forall2_anexa hf2 rfl
          exact ⟨comp1, comp2, comp3, comp4⟩
        · have hCj : caminhaoEm (st.caminhoes.set i cam') j = caminhaoEm st.caminhoes j := by
            unfold caminhaoEm
            exact getD_set_ne st.caminhoes i j _ _ hji
          have hAj : entregasEm (A.set i (entregasEm A i ++ [entrega])) j = entregasEm A j := by
            unfold entregasEm
            exact getD_set_ne A i j _ _ hji
          have hRj : legsEm (appendLeg st.rotas cam.id (centro, entrega.destino, dist)) j
              = legsEm st.rotas j := by
            rw [happend]
            unfold legsEm
            rw [getD_set_ne st.rotas i j _ _ hji]
          obtain ⟨hid, hcap, hhoras, hf2⟩ := hpt j hj
          have comp1 : (caminhaoEm (st.caminhoes.set i cam') j).id = (caminhaoEm cs0 j).id := by
            rw [hCj]
            exact hid
          have comp2 : (caminhaoEm (st.caminhoes.set i cam') j).capacidade
              = (caminhaoEm cs0 j).capacidade
                  - ((entregasEm (A.set i (entregasEm A i ++ [entrega])) j).map
                      Entrega.peso).sum := by
            rw [hCj, hAj]
            exact hcap
          have comp3 : (caminhaoEm (st.caminhoes.set i cam') j).horas_disponiveis
              = (caminhaoEm cs0 j).horas_disponiveis
                  - ((legsEm (appendLeg st.rotas cam.id (centro, entrega.destino, dist)) j).map
                      fun leg => leg.2.2 / 50).sum := by
            rw [hCj, hRj]
            exact hhoras
          have comp4 : List.Forall₂
              (fun (leg : String × String × ℚ) (e : Entrega) => leg.2.1 = e.destino)
              (legsEm (appendLeg st.rotas cam.id (centro, entrega.destino, dist)) j)
              (entregasEm (A.set i (entregasEm A i ++ [entrega])) j) := by
            rw [hRj, hAj]
            exact hf2
          exact ⟨comp1, comp2, comp3, comp4⟩

/-- The allocation fold preserves the accounting invariant. -/
lemma planInv_foldl {cs0 : List Caminhao} (centros : List String)
    (buscar : String → String → WithTop ℚ) (hnd : (cs0.map Caminhao.id).Nodup) :
    ∀ (pend feitas : List Entrega) (st : Estado), PlanInv cs0 feitas st →
      PlanInv cs0 (feitas ++ pend) (pend.foldl (alocar centros buscar) st) := by
  intro pend
  induction pend with
  | nil =>
      intro feitas st h
      simpa using h
  | cons e r ih =>
      intro feitas st h
      have h1 := planInv_alocar centros buscar e hnd h
      have h2 := ih (feitas ++ [e]) _ h1
      rw [List.append_assoc] at h2
      simpa using h2

/-- Flattening a partition with only empty blocks gives nothing. -/
lemma flatten_replicate_nil : ∀ (n : ℕ), (List.replicate n ([] : List Entrega)).flatten = [] := by
  intro n
  induction n with
  | zero => rfl
  | succ m ih => rw [List.replicate_succ, List.flatten_cons, List.nil_append, ih]

/-- Every block of the all-empty partition is empty. -/
lemma getD_replicate_nil : ∀ (n j : ℕ), (List.replicate n ([] : List Entrega)).getD j [] = [] := by
  intro n
  induction n with
  | zero => intro j; rfl
  | succ m ih =>
      intro j
      cases j with
      | zero => rw [List.replicate_succ, List.getD_cons_zero]
      | succ k =>
          rw [List.replicate_succ, List.getD_cons_succ]
          exact ih k

/-- Every route list of the initial state is empty. -/
lemma legsEm_inicial : ∀ (cs0 : List Caminhao) (j : ℕ),
    legsEm (cs0.map fun c => (c.id, [])) j = [] := by
  intro cs0
  induction cs0 with
  | nil => intro j; rfl
  | cons c r ih =>
      intro j
      cases j with
      | zero => rfl
      | succ k =>
          show ((((c.id, []) :: r.map fun c => (c.id, [])).getD (k + 1) (0, []))).2 = []
          rw [List.getD_cons_succ]
          exact ih k

/-- The initial planner state satisfies the accounting invariant with the
all-empty ghost assignment. -/
lemma planInv_inicial (cs0 : List Caminhao) : PlanInv cs0 [] (estadoInicial cs0) := by
  refine ⟨rfl, ?_, List.replicate cs0.length [], List.length_replicate _ _, ?_, ?_⟩
  · show (cs0.map fun c => (c.id, [])).map Prod.fst = cs0.map Caminhao.id
    rw [List.map_map]
    rfl
  · show ([] : List Entrega).Perm ((List.replicate cs0.length []).flatten ++ [])
    rw [flatten_replicate_nil]
    exact List.Perm.refl _
  · intro j hj
    have hA : entregasEm (List.replicate cs0.length []) j = [] := getD_replicate_nil _ _
    have hR : legsEm (cs0.map fun c => (c.id, [])) j = [] := legsEm_inicial cs0 j
    have comp2 : (caminhaoEm cs0 j).capacidade
        = (caminhaoEm cs0 j).capacidade
            - ((entregasEm (List.replicate cs0.length []) j).map Entrega.peso).sum := by
      rw [hA]
      simp
    have comp3 : (caminhaoEm cs0 j).horas_disponiveis
        = (caminhaoEm cs0 j).horas_disponiveis
            - ((legsEm (cs0.map fun c => (c.id, [])) j).map fun leg => leg.2.2 / 50).sum := by
      rw [hR]
      simp
    have comp4 : List.Forall₂
        (fun (leg : String × String × ℚ) (e : Entrega) => leg.2.1 = e.destino)
        (legsEm (cs0.map fun c => (c.id, [])) j)
        (entregasEm (List.replicate cs0.length []) j) := by
      rw [hA, hR]
      exact List.Forall₂.nil
    exact ⟨rfl, comp2, comp3, comp4⟩

/-- One allocation step keeps every truck's remaining capacity and hours
nonnegative: a truck is only charged when the feasibility checks pass. -/
lemma caminhoesNonneg_alocar {st : Estado} (centros : List String)
    (buscar : String → String → WithTop ℚ) (entrega : Entrega)
    (h : CaminhoesNonneg st.caminhoes) :
    CaminhoesNonneg (alocar centros buscar st entrega).caminhoes := by
  unfold alocar
  cases hsel : selecionarMelhor st.caminhoes centros buscar entrega with
  | none => exact h
  | some t =>
      obtain ⟨i, centro, dist⟩ := t
      obtain ⟨cam, hcam, hviavel⟩ := selecionarMelhor_some hsel
      dsimp only
      rw [hcam]
      dsimp only
      intro x hx
      rcases List.mem_or_eq_of_mem_set hx with hx | hx
      · exact h x hx
      · subst hx
        constructor
        · show (0 : ℚ) ≤ cam.capacidade - entrega.peso
          exact sub_nonneg.mpr hviavel.1
        · show (0 : ℚ) ≤ cam.horas_disponiveis - dist / 50
          exact sub_nonneg.mpr hviavel.2.1

/-- The allocation fold keeps every truck's remaining capacity and hours
nonnegative. -/
lemma caminhoesNonneg_fold (centros : List String) (buscar : String → String → WithTop ℚ) :
    ∀ (l : List Entrega) (st : Estado), CaminhoesNonneg st.caminhoes →
      CaminhoesNonneg ((l.foldl (alocar centros buscar) st).caminhoes) := by
  intro l
  induction l with
  | nil => intro st h; exact h
  | cons e r ih =>
      intro st h
      exact ih (alocar centros buscar st e) (caminhoesNonneg_alocar centros buscar e h)

/-- C5: after any run of `planejar_rotas` and for every truck, the weights
assigned to it (by the ghost assignment that explains the run) sum to at most
its original capacity and the travel times of its legs sum to at most its
original available hours; the remaining capacity and hours equal the initial
values minus those sums, and remain nonnegative throughout the run (after
every prefix of the processed deliveries). Stated for trucks with pairwise
distinct ids and nonnegative initial capacity and hours. -/
theorem C5_capacidade_horas (entregas : List Entrega) (caminhoes : List Caminhao)
    (centros : List String) (buscar : String → String → WithTop ℚ)
    (hnd : (caminhoes.map Caminhao.id).Nodup) (hnn : CaminhoesNonneg caminhoes) :
    (∃ A, ContasOk caminhoes (planejar_rotas entregas caminhoes centros buscar) A) ∧
    ∀ p rest : List Entrega, entregas.mergeSort prazoLe = p ++ rest →
      CaminhoesNonneg
        ((p.foldl (alocar centros buscar) (estadoInicial caminhoes)).caminhoes) := by
  constructor
  · have hinv := planInv_foldl centros buscar hnd (entregas.mergeSort prazoLe) []
      (estadoInicial caminhoes) (planInv_inicial caminhoes)
    rw [List.nil_append] at hinv
    obtain ⟨hids, hkeys, A, hlen, hperm, hpt⟩ := hinv
    have hfinnn : CaminhoesNonneg
        (((entregas.mergeSort prazoLe).foldl (alocar centros buscar)
          (estadoInicial caminhoes)).caminhoes) :=
      caminhoesNonneg_fold centros buscar (entregas.mergeSort prazoLe)
        (estadoInicial caminhoes) hnn
    have hlen_fin : ((entregas.mergeSort prazoLe).foldl (alocar centros buscar)
        (estadoInicial caminhoes)).caminhoes.length = caminhoes.length := by
      have h1 := congrArg List.length hids
      simpa using h1
    refine ⟨A, hlen, ?_⟩
    intro i hi
    obtain ⟨hid, hcap, hhoras, hf2⟩ := hpt i hi
    have hi_fin : i < ((entregas.mergeSort prazoLe).foldl (alocar centros buscar)
        (estadoInicial caminhoes)).caminhoes.length := by
      rw [hlen_fin]
      exact hi
    have hmem : caminhaoEm ((entregas.mergeSort prazoLe).foldl (alocar centros buscar)
          (estadoInicial caminhoes)).caminhoes i
        ∈ ((entregas.mergeSort prazoLe).foldl (alocar centros buscar)
          (estadoInicial caminhoes)).caminhoes := by
      unfold caminhaoEm
      rw [List.getD_eq_getElem _ _ hi_fin]
      exact List.getElem_mem _
    obtain ⟨hc_nn, hh_nn⟩ := hfinnn _ hmem
    refine ⟨?_, ?_, hcap, hhoras, hf2⟩
    · exact sub_nonneg.mp (hcap ▸ hc_nn)
    · exact sub_nonneg.mp (hhoras ▸ hh_nn)
  · intro p rest hsplit
    exact caminhoesNonneg_fold centros buscar p (estadoInicial caminhoes) hnn

/-- C5 witness: one delivery, one truck, one centre at finite distance. -/
theorem C5_capacidade_horas_witness :
    ((([⟨1, 100, 10⟩] : List Caminhao).map Caminhao.id).Nodup ∧
      CaminhoesNonneg [⟨1, 100, 10⟩]) ∧
    ((∃ A, ContasOk [⟨1, 100, 10⟩]
        (planejar_rotas [⟨"x", 10, 5⟩] [⟨1, 100, 10⟩] ["c"]
          fun _ _ => ((100 : ℚ) : WithTop ℚ)) A) ∧
      ∀ p rest : List Entrega,
        ([(⟨"x", 10, 5⟩ : Entrega)]).mergeSort prazoLe = p ++ rest →
        CaminhoesNonneg
          ((p.foldl (alocar ["c"] fun _ _ => ((100 : ℚ) : WithTop ℚ))
            (estadoInicial [⟨1, 100, 10⟩])).caminhoes)) :=
  ⟨⟨by decide, by decide⟩,
    C5_capacidade_horas [⟨"x", 10, 5⟩] [⟨1, 100, 10⟩] ["c"]
      (fun _ _ => ((100 : ℚ) : WithTop ℚ)) (by decide) (by decide)⟩

/-- C6: after any run of `planejar_rotas` on trucks with pairwise distinct
ids, the input deliveries are partitioned by a ghost assignment: as a
multiset they are exactly the assigned deliveries plus the unallocated ones,
so each appears in exactly one truck's block or the unallocated list; each
truck's route legs match its assigned deliveries one for one; and the leg
counts plus the unallocated count add up to the input count. -/
theorem C6_particao (entregas : List Entrega) (caminhoes : List Caminhao)
    (centros : List String) (buscar : String → String → WithTop ℚ)
    (hnd : (caminhoes.map Caminhao.id).Nodup) :
    ∃ A, ParticaoOk entregas caminhoes
      (planejar_rotas entregas caminhoes centros buscar) A := by
  have hinv := planInv_foldl centros buscar hnd (entregas.mergeSort prazoLe) []
    (estadoInicial caminhoes) (planInv_inicial caminhoes)
  rw [List.nil_append] at hinv
  obtain ⟨hids, hkeys, A, hlen, hperm, hpt⟩ := hinv
  have hperm' : entregas.Perm (A.flatten
      ++ (planejar_rotas entregas caminhoes centros buscar).nao_alocadas) :=
    (List.mergeSort_perm entregas prazoLe).symm.trans hperm
  refine ⟨A, hlen, hperm', fun i hi => (hpt i hi).2.2.2, ?_⟩
  have h1 : ((List.range caminhoes.length).map fun i =>
        (legsEm (planejar_rotas entregas caminhoes centros buscar).rotas i).length)
      = ((List.range caminhoes.length).map fun i => (entregasEm A i).length) := by
    apply List.ext_getElem
    · simp
    · intro n h₁ h₂
      rw [List.getElem_map, List.getElem_map, List.getElem_range]
      exact List.Forall₂.length_eq ((hpt n (by simpa using h₁)).2.2.2)
  have h2 : ((List.range caminhoes.length).map fun i => (entregasEm A i).length).sum
      = A.flatten.length := by
    rw [List.length_flatten]
    congr 1
    apply List.ext_getElem
    · simp [hlen]
    · intro n h₁ h₂
      have hn : n < A.length := by simpa using h₂
      rw [List.getElem_map, List.getElem_range, List.getElem_map]
      unfold entregasEm
      rw [List.getD_eq_getElem _ _ hn]
  have hflat : A.flatten.length
      + (planejar_rotas entregas caminhoes centros buscar).nao_alocadas.length
      = entregas.length := by
    have h3 := hperm'.length_eq
    rw [List.length_append] at h3
    omega
  rw [h1, h2]
  exact hflat

/-- C6 witness: one delivery, one truck, one centre at finite distance. -/
theorem C6_particao_witness :
    (([⟨2, 100, 10⟩] : List Caminhao).map Caminhao.id).Nodup ∧
    ∃ A, ParticaoOk [⟨"y", 10, 5⟩] [⟨2, 100, 10⟩]
      (planejar_rotas [⟨"y", 10, 5⟩] [⟨2, 100, 10⟩] ["c"]
        fun _ _ => ((100 : ℚ) : WithTop ℚ)) A :=
  ⟨by decide,
    C6_particao [⟨"y", 10, 5⟩] [⟨2, 100, 10⟩] ["c"]
      (fun _ _ => ((100 : ℚ) : WithTop ℚ)) (by decide)⟩
